import Mathlib

/-!
Verification of the docmost-to-outline migration engine.

This file gives a shallow embedding of the migration engine
(`src/migrator/*.py`, `src/utils/*.py`) in Lean 4 and proves or refutes
the frozen claims about it.

Conventions used throughout:
  * Python strings are modelled as `List Char` (ASCII fragment; the inputs
    the program handles are markdown text).  `String` wrappers are provided
    where the original API takes `str`.
  * Filesystem paths are modelled as `List String` of path segments,
    relative to the directory that the code resolves them against.
  * The regex-based text operations of `markdown_transformer.py` are
    embedded as deterministic scanners that reproduce the behaviour of the
    concrete patterns used in the source (`re.findall` / `re.sub` with
    leftmost, non-overlapping matching; the patterns involved are
    backtracking-free, which the embedding comments justify case by case).
  * HTTP traffic is modelled by oracles mapping a request index to the
    response the server gives; `Retry-After` headers are modelled as the
    already-parsed fractional-second value (`float(...)` in the source),
    i.e. an `Option ℚ`.
-/

/-! ### Basic character/string helpers -/

/-- Whitespace as recognised by Python's `str.strip()` / `re` `\s`
(ASCII fragment). -/
def pyIsSpace (c : Char) : Bool :=
  c = ' ' || c = '\t' || c = '\n' || c = '\r' || c = '\x0b' || c = '\x0c'

/-- Python `str.strip()`: remove leading and trailing whitespace. -/
def pyStrip (l : List Char) : List Char :=
  ((l.dropWhile pyIsSpace).reverse.dropWhile pyIsSpace).reverse

/-- Split a character list on `'/'` (used to model `pathlib` name lookup). -/
def splitSlash : List Char → List (List Char)
  | [] => [[]]
  | c :: t =>
    let r := splitSlash t
    if c = '/' then [] :: r
    else
      match r with
      | [] => [[c]]
      | p :: ps => (c :: p) :: ps

/-- Python `pathlib.PurePosixPath(t).name`: the last path component,
with empty and `"."` components dropped. -/
def pathName (t : List Char) : List Char :=
  (((splitSlash t).filter (fun p => p ≠ [] ∧ p ≠ ['.'])).getLast?).getD []

/-- `takeUntil d s = (a, b)` with `s = a ++ b`, `d ∉ a`, and `b` either empty
or starting with `d`.  Models a regex `[^d]*` run. -/
def takeUntil (d : Char) : List Char → List Char × List Char
  | [] => ([], [])
  | c :: t =>
    if c = d then ([], c :: t)
    else
      let r := takeUntil d t
      (c :: r.1, r.2)

/-- Strip an exact literal from the front of a list. -/
def stripPre : List Char → List Char → Option (List Char)
  | [], s => some s
  | _ :: _, [] => none
  | p :: ps, c :: cs => if p = c then stripPre ps cs else none

/-- Strip a literal from the front, comparing ASCII case-insensitively
(models `re.IGNORECASE` literal matching). -/
def stripCIPre : List Char → List Char → Option (List Char)
  | [], s => some s
  | _ :: _, [] => none
  | p :: ps, c :: cs => if p.toLower = c.toLower then stripCIPre ps cs else none

/-- Find the first (leftmost) case-insensitive occurrence of `pat`:
returns the part before the occurrence and the part after it.
Models the lazy `(.*?)pat` step of a regex. -/
def findCISub (pat : List Char) : List Char → Option (List Char × List Char)
  | [] => (stripCIPre pat []).map (fun r => (([] : List Char), r))
  | c :: t =>
    match stripCIPre pat (c :: t) with
    | some rest => some ([], rest)
    | none => (findCISub pat t).map (fun pr => (c :: pr.1, pr.2))

/-- Decimal digit character. -/
def digitChar (d : Nat) : Char := Char.ofNat (48 + d)

/-- Decimal rendering of a natural number, as Python `str(n)` produces.
The first argument is structural fuel (`n` itself always suffices, since
the value shrinks by a factor of ten each step). -/
def natCharsAux : Nat → Nat → List Char → List Char
  | 0, _, acc => acc
  | fuel + 1, n, acc =>
    if n = 0 then acc
    else natCharsAux fuel (n / 10) (digitChar (n % 10) :: acc)

def natChars (n : Nat) : List Char :=
  if n = 0 then ['0'] else natCharsAux n n []

/-! #### Helper lemmas about the string primitives -/

theorem takeUntil_append (d : Char) :
    ∀ s : List Char, (takeUntil d s).1 ++ (takeUntil d s).2 = s := by
  intro s
  induction s with
  | nil => simp [takeUntil]
  | cons c t ih =>
    by_cases h : c = d <;> simp [takeUntil, h, ih]

theorem takeUntil_not_mem (d : Char) :
    ∀ s : List Char, d ∉ (takeUntil d s).1 := by
  intro s
  induction s with
  | nil => simp [takeUntil]
  | cons c t ih =>
    by_cases h : c = d <;> simp [takeUntil, h, ih]
    exact fun hd => h hd.symm

/-- If `d` does not occur in `a`, the scan stops exactly at the explicit
delimiter. -/
theorem takeUntil_exact (d : Char) (a b : List Char) (ha : d ∉ a) :
    takeUntil d (a ++ d :: b) = (a, d :: b) := by
  induction a with
  | nil => simp [takeUntil]
  | cons c t ih =>
    simp only [List.mem_cons, not_or] at ha
    simp [takeUntil, Ne.symm ha.1, ih ha.2]

theorem takeUntil_no_delim (d : Char) (a : List Char) (ha : d ∉ a) :
    takeUntil d a = (a, []) := by
  induction a with
  | nil => simp [takeUntil]
  | cons c t ih =>
    simp only [List.mem_cons, not_or] at ha
    simp [takeUntil, Ne.symm ha.1, ih ha.2]

theorem stripPre_self (p : List Char) : ∀ r, stripPre p (p ++ r) = some r := by
  induction p with
  | nil => intro r; rfl
  | cons c t ih => intro r; simp [stripPre, ih]

/-- Two distinct literals, neither containing the closing character `x`,
cannot be confused: stripping `a ++ [x]` off `b ++ x :: r` fails when
`a ≠ b`. -/
theorem stripPre_neq (x : Char) :
    ∀ (a b : List Char) (r : List Char), a ≠ b → x ∉ a → x ∉ b →
      stripPre (a ++ [x]) (b ++ x :: r) = none := by
  intro a
  induction a with
  | nil =>
    intro b r hne hxa hxb
    match b with
    | [] => exact absurd rfl hne
    | c :: b' =>
      simp only [List.mem_cons, not_or] at hxb
      simp [stripPre, hxb.1]
  | cons c a' ih =>
    intro b r hne hxa hxb
    simp only [List.mem_cons, not_or] at hxa
    match b with
    | [] =>
      simp [stripPre, Ne.symm hxa.1]
    | d :: b' =>
      simp only [List.mem_cons, not_or] at hxb
      by_cases hcd : c = d
      · subst hcd
        have : a' ≠ b' := fun h => hne (by rw [h])
        simp [stripPre, ih b' r this hxa.2 hxb.2]
      · simp [stripPre, hcd]

theorem mem_pyStrip {c : Char} {l : List Char} (h : c ∈ pyStrip l) : c ∈ l := by
  unfold pyStrip at h
  rw [List.mem_reverse] at h
  have h1 := (List.dropWhile_sublist (l := (l.dropWhile pyIsSpace).reverse)
    (p := pyIsSpace)).mem h
  rw [List.mem_reverse] at h1
  exact (List.dropWhile_sublist (l := l) (p := pyIsSpace)).mem h1

theorem mem_splitSlash {c : Char} :
    ∀ (t p : List Char), p ∈ splitSlash t → c ∈ p → c ∈ t := by
  intro t
  induction t with
  | nil =>
    intro p hp hc
    simp [splitSlash] at hp
    subst hp; simp at hc
  | cons d t ih =>
    intro p hp hc
    by_cases hd : d = '/'
    · simp only [splitSlash, if_pos hd] at hp
      rcases List.mem_cons.mp hp with hp | hp
      · subst hp; simp at hc
      · exact List.mem_cons_of_mem _ (ih p hp hc)
    · simp only [splitSlash, if_neg hd] at hp
      rcases hmatch : splitSlash t with _ | ⟨q, qs⟩
      · rw [hmatch] at hp
        simp at hp
        subst hp
        simp at hc
        simp [hc]
      · rw [hmatch] at hp
        rcases List.mem_cons.mp hp with hp | hp
        · subst hp
          rcases List.mem_cons.mp hc with hc | hc
          · simp [hc]
          · exact List.mem_cons_of_mem _
              (ih q (hmatch ▸ List.mem_cons_self q qs) hc)
        · exact List.mem_cons_of_mem _
            (ih p (hmatch ▸ List.mem_cons_of_mem q hp) hc)

theorem mem_pathName {c : Char} {t : List Char} (h : c ∈ pathName t) : c ∈ t := by
  unfold pathName at h
  rcases hg : (((splitSlash t).filter (fun p => p ≠ [] ∧ p ≠ ['.'])).getLast?) with _ | p
  · rw [hg] at h; simp at h
  · rw [hg] at h
    simp at h
    have hp : p ∈ (splitSlash t).filter (fun p => p ≠ [] ∧ p ≠ ['.']) :=
      List.mem_of_mem_getLast? hg
    exact mem_splitSlash t p (List.mem_of_mem_filter hp) h

def decimalDigits : List Char := ['0', '1', '2', '3', '4', '5', '6', '7', '8', '9']

theorem digitChar_mem_decimalDigits (d : Nat) (h : d < 10) :
    digitChar d ∈ decimalDigits := by
  interval_cases d <;> decide

theorem natCharsAux_digits :
    ∀ (fuel n : Nat) (acc : List Char), (∀ c ∈ acc, c ∈ decimalDigits) →
      ∀ c ∈ natCharsAux fuel n acc, c ∈ decimalDigits := by
  intro fuel
  induction fuel with
  | zero => intro n acc hacc c hc; exact hacc c hc
  | succ fuel ih =>
    intro n acc hacc c hc
    by_cases h : n = 0
    · rw [natCharsAux, if_pos h] at hc
      exact hacc c hc
    · rw [natCharsAux, if_neg h] at hc
      refine ih (n / 10) _ ?_ c hc
      intro d hd
      rcases List.mem_cons.mp hd with hd | hd
      · subst hd
        exact digitChar_mem_decimalDigits _ (Nat.mod_lt _ (by norm_num))
      · exact hacc d hd

theorem natChars_digits (n : Nat) : ∀ c ∈ natChars n, c ∈ decimalDigits := by
  intro c hc
  unfold natChars at hc
  by_cases h : n = 0
  · rw [if_pos h] at hc
    simp at hc
    subst hc
    decide
  · rw [if_neg h] at hc
    exact natCharsAux_digits n n [] (by simp) c hc

/-! ### Target API client: rate-limit retry loop (`outline_client.py`)

`create_document` (lines 128-182) and `create_attachment` (lines 211-264)
share the identical retry structure:

    max_retries = 3
    for attempt in range(max_retries):
        response = post(...)
        if response.status_code == 429:
            if attempt < max_retries - 1:
                wait_seconds = float(response.headers.get("Retry-After", "60"))
                time.sleep(wait_seconds)
                continue
            else:
                response.raise_for_status()
        response.raise_for_status()
        return ...
    raise Exception("Max retries exceeded")

`httpx.Response.raise_for_status` raises for every non-2xx status. -/

/-- An HTTP response as far as the retry loop observes it: the status code
and the `Retry-After` header, already parsed as fractional seconds
(`float(...)` in the source); `none` when the header is absent. -/
structure HttpResp where
  status : Nat
  retryAfter : Option ℚ
deriving DecidableEq

/-- `float(response.headers.get("Retry-After", "60"))`. -/
def retryAfterWait (r : HttpResp) : ℚ := r.retryAfter.getD 60

inductive CallOutcome where
  /-- 2xx response on the given 0-based attempt: request returns. -/
  | success (attempt : Nat)
  /-- `raise_for_status` raised on a non-2xx response with this status. -/
  | httpError (status : Nat)
  /-- the `raise Exception("Max retries exceeded")` line (unreachable). -/
  | exhausted
deriving DecidableEq

/-- What one client call did: how many HTTP requests it issued, the
sequence of `time.sleep` waits it performed (in order), and its outcome. -/
structure CallTrace where
  requests : Nat
  waits : List ℚ
  outcome : CallOutcome
deriving DecidableEq

def maxRetries : Nat := 3

/-- The retry loop body, `attempt` being the 0-based loop counter and
`fuel` the remaining loop iterations; `server n` is the response the
server gives to the `n`-th request. -/
def rateLimitedPost (server : Nat → HttpResp) : Nat → Nat → CallTrace
  | _, 0 => ⟨0, [], .exhausted⟩
  | attempt, fuel + 1 =>
    let r := server attempt
    if r.status = 429 then
      if attempt < maxRetries - 1 then
        let t := rateLimitedPost server (attempt + 1) fuel
        ⟨t.requests + 1, retryAfterWait r :: t.waits, t.outcome⟩
      else ⟨1, [], .httpError 429⟩
    else if 200 ≤ r.status ∧ r.status ≤ 299 then ⟨1, [], .success attempt⟩
    else ⟨1, [], .httpError r.status⟩

/-- `OutlineClient.create_document`, viewed through its retry behaviour. -/
def create_document (server : Nat → HttpResp) : CallTrace :=
  rateLimitedPost server 0 maxRetries

/-- `OutlineClient.create_attachment`, viewed through its retry behaviour
(lines 238-264 are the same loop as `create_document`'s). -/
def create_attachment (server : Nat → HttpResp) : CallTrace :=
  rateLimitedPost server 0 maxRetries

/-- C2: the retry loop of `create_document` / `create_attachment`:
429 responses are retried up to 3 attempts total, waiting per `Retry-After`
(default 60 s), a 429 on the final attempt is a hard failure with no fourth
request, and any non-429 non-2xx response fails immediately. -/
theorem c2_retry_policy (server : Nat → HttpResp) :
    (((server 0).status = 429 ∧ (server 1).status = 429 ∧ (server 2).status = 429) →
      create_document server =
        ⟨3, [retryAfterWait (server 0), retryAfterWait (server 1)], .httpError 429⟩ ∧
      create_attachment server =
        ⟨3, [retryAfterWait (server 0), retryAfterWait (server 1)], .httpError 429⟩)
    ∧ (∀ s : Nat, (server 0).status = s → s ≠ 429 → ¬(200 ≤ s ∧ s ≤ 299) →
        create_document server = ⟨1, [], .httpError s⟩ ∧
        create_attachment server = ⟨1, [], .httpError s⟩)
    ∧ ((server 0).status = 429 → 200 ≤ (server 1).status → (server 1).status ≤ 299 →
        create_document server = ⟨2, [retryAfterWait (server 0)], .success 1⟩ ∧
        create_attachment server = ⟨2, [retryAfterWait (server 0)], .success 1⟩)
    ∧ ((server 0).status = 429 → (server 1).status ≠ 429 →
        ¬(200 ≤ (server 1).status ∧ (server 1).status ≤ 299) →
        create_document server = ⟨2, [retryAfterWait (server 0)], .httpError (server 1).status⟩)
    ∧ (200 ≤ (server 0).status → (server 0).status ≤ 299 →
        create_document server = ⟨1, [], .success 0⟩)
    ∧ (∀ r : HttpResp, r.retryAfter = none → retryAfterWait r = 60) := by
  refine ⟨?_, ?_, ?_, ?_, ?_, ?_⟩
  · rintro ⟨h0, h1, h2⟩
    constructor <;>
      simp [create_document, create_attachment, rateLimitedPost, maxRetries, h0, h1, h2]
  · intro s h0 hne h2xx
    constructor <;>
      simp [create_document, create_attachment, rateLimitedPost, maxRetries, h0, hne, h2xx]
  · intro h0 hlo hhi
    have hne : (server 1).status ≠ 429 := by omega
    constructor <;>
      simp [create_document, create_attachment, rateLimitedPost, maxRetries,
        h0, hne, hlo, hhi]
  · intro h0 hne h2xx
    simp [create_document, rateLimitedPost, maxRetries, h0, hne, h2xx]
  · intro hlo hhi
    have hne : (server 0).status ≠ 429 := by omega
    simp [create_document, rateLimitedPost, maxRetries, hne, hlo, hhi]
  · intro r hr
    simp [retryAfterWait, hr]

/-- Witness for C2 at concrete servers: three consecutive 429s with
`Retry-After: 2` give two 2-second waits and a hard failure on the third
attempt; a 429 then a 200 gives exactly one 2-second wait then success;
a 500 fails immediately. -/
theorem c2_retry_witness :
    create_document (fun _ => ⟨429, some 2⟩) = ⟨3, [2, 2], .httpError 429⟩ ∧
    create_document (fun n => if n = 0 then ⟨429, some 2⟩ else ⟨200, none⟩) =
      ⟨2, [2], .success 1⟩ ∧
    create_document (fun _ => ⟨500, none⟩) = ⟨1, [], .httpError 500⟩ := by
  refine ⟨?_, ?_, ?_⟩
  · exact ((c2_retry_policy (fun _ => ⟨429, some 2⟩)).1 ⟨rfl, rfl, rfl⟩).1
  · exact ((c2_retry_policy (fun n => if n = 0 then ⟨429, some 2⟩ else ⟨200, none⟩)).2.2.1
      rfl (by decide) (by decide)).1
  · exact ((c2_retry_policy (fun _ => ⟨500, none⟩)).2.1 500 rfl (by decide) (by decide)).1

/-! ### Content transformer (`markdown_transformer.py`)

`extract_attachment_references` uses
`re.findall(r"!?\[[^\]]*\]\((/?/?files/[^)]+)\)", content)` followed by
`path.lstrip("/")`.  The pattern is backtracking-free: `[^\]]*` is bounded
by the mandatory `]`, `[^)]+` by the mandatory `)`, and the two optional
slashes are mutually exclusive with the literal `files/` that follows
(which starts with `f`, not `/`).  The scanners below reproduce
leftmost, non-overlapping `re` matching: at each position try the match;
on success emit and continue after the match, otherwise advance one
character. -/

def filesLit : List Char := ['f', 'i', 'l', 'e', 's', '/']

/-- Match `files/[^)]+` followed by `)`: returns (body after `files/`,
rest after `)`). -/
def filesBody (v : List Char) : Option (List Char × List Char) :=
  match stripPre filesLit v with
  | none => none
  | some w =>
    let p := takeUntil ')' w
    match p.2 with
    | ')' :: rest => if p.1 = [] then none else some (p.1, rest)
    | _ => none

/-- Match `/?/?files/[^)]+` followed by `)`: returns (the whole capture
group, rest after `)`).  The slash cases are exclusive because `files/`
begins with `f`. -/
def targetMatch : List Char → Option (List Char × List Char)
  | '/' :: '/' :: w => (filesBody w).map (fun pr => ('/' :: '/' :: (filesLit ++ pr.1), pr.2))
  | '/' :: w => (filesBody w).map (fun pr => ('/' :: (filesLit ++ pr.1), pr.2))
  | v => (filesBody v).map (fun pr => (filesLit ++ pr.1, pr.2))

/-- Match `\[[^\]]*\]\((/?/?files/[^)]+)\)` at the head of `s`. -/
def bracketTarget (s : List Char) : Option (List Char × List Char) :=
  match s with
  | '[' :: t =>
    let p := takeUntil ']' t
    match p.2 with
    | ']' :: '(' :: v => targetMatch v
    | _ => none
  | _ => none

/-- Match the full extraction pattern `!?\[[^\]]*\]\((/?/?files/[^)]+)\)`
at the head of `s`.  When the leading `!` is present but the tail fails,
the position fails altogether (the `!` cannot begin `[`). -/
def tryMatchRef (s : List Char) : Option (List Char × List Char) :=
  match s with
  | '!' :: t => bracketTarget t
  | _ => bracketTarget s

theorem stripPre_eq_append :
    ∀ {p s r : List Char}, stripPre p s = some r → s = p ++ r := by
  intro p
  induction p with
  | nil => intro s r h; simp [stripPre] at h; simp [h]
  | cons c t ih =>
    intro s r h
    match s with
    | [] => simp [stripPre] at h
    | d :: s' =>
      by_cases hcd : c = d
      · subst hcd
        simp only [stripPre, if_pos rfl] at h
        simpa using ih h
      · simp [stripPre, hcd] at h

theorem filesBody_rest_lt {v b rest : List Char} (h : filesBody v = some (b, rest)) :
    rest.length < v.length := by
  unfold filesBody at h
  split at h
  · simp at h
  · rename_i w hs
    dsimp only at h
    split at h
    · rename_i rest' hp
      split at h
      · simp at h
      · rename_i hb
        simp only [Option.some.injEq, Prod.mk.injEq] at h
        have hv := stripPre_eq_append hs
        have hw := takeUntil_append ')' w
        rw [hp, h.2] at hw
        have hlen := congrArg List.length hw
        simp at hlen
        rw [hv]
        simp
        omega
    · simp at h

theorem targetMatch_rest_lt {v t rest : List Char} (h : targetMatch v = some (t, rest)) :
    rest.length < v.length := by
  unfold targetMatch at h
  split at h
  · simp only [Option.map_eq_some'] at h
    obtain ⟨pr, hpr, heq⟩ := h
    cases heq
    have := @filesBody_rest_lt _ pr.1 pr.2 (by simpa using hpr)
    simp
    omega
  · simp only [Option.map_eq_some'] at h
    obtain ⟨pr, hpr, heq⟩ := h
    cases heq
    have := @filesBody_rest_lt _ pr.1 pr.2 (by simpa using hpr)
    simp
    omega
  · simp only [Option.map_eq_some'] at h
    obtain ⟨pr, hpr, heq⟩ := h
    cases heq
    exact @filesBody_rest_lt _ pr.1 pr.2 (by simpa using hpr)

theorem bracketTarget_rest_lt {s t rest : List Char}
    (h : bracketTarget s = some (t, rest)) : rest.length < s.length := by
  unfold bracketTarget at h
  split at h
  · rename_i u
    dsimp only at h
    split at h
    · rename_i v hp
      have hlt := targetMatch_rest_lt h
      have hu := takeUntil_append ']' u
      rw [hp] at hu
      have : v.length + 2 ≤ u.length := by
        rw [← hu]; simp
      simp
      omega
    · simp at h
  · simp at h

theorem tryMatchRef_rest_lt {s t rest : List Char}
    (h : tryMatchRef s = some (t, rest)) : rest.length < s.length := by
  unfold tryMatchRef at h
  split at h
  · have := bracketTarget_rest_lt h
    simp
    omega
  · exact bracketTarget_rest_lt h

/-- `re.findall` scanning for the extraction pattern: leftmost,
non-overlapping matches; on failure advance one character. -/
def extractScan (s : List Char) : List (List Char) :=
  match h : tryMatchRef s with
  | some pr => pr.1 :: extractScan pr.2
  | none =>
    match s with
    | [] => []
    | _ :: t => extractScan t
  termination_by s.length
  decreasing_by
  · exact @tryMatchRef_rest_lt _ pr.1 pr.2 (by simpa using h)
  · simp

/-- `MarkdownTransformer.extract_attachment_references` (lines 11-27):
`re.findall` then `path.lstrip("/")` on every match. -/
def extract_attachment_references (content : String) : List String :=
  (extractScan content.toList).map (fun p => (p.dropWhile (· = '/')).asString)

/-! `MarkdownTransformer.replace_attachment_urls` (lines 29-80): for each
mapping entry and each of the three spellings (bare, `/`-, `//`-prefixed)
it runs an image substitution
`re.sub(r"!\[([^\]]*)\]\(LIT\)", r"![\1](URL)", result)` and then a link
substitution `re.sub(r"\[([^\]]*)\]\(LIT\)", replace_link, result)` where
`replace_link` strips the link text, takes its last path component when it
contains a `/`, and appends the byte size. -/

/-- Match `!\[([^\]]*)\]\(LIT\)` at the head of `s`: returns
(alt text, rest after the match). -/
def tryMatchImage (lit : List Char) (s : List Char) : Option (List Char × List Char) :=
  match s with
  | '!' :: '[' :: t =>
    let p := takeUntil ']' t
    match p.2 with
    | ']' :: '(' :: v =>
      match stripPre (lit ++ [')']) v with
      | some rest => some (p.1, rest)
      | none => none
    | _ => none
  | _ => none

/-- Match `\[([^\]]*)\]\(LIT\)` at the head of `s`. -/
def tryMatchLink (lit : List Char) (s : List Char) : Option (List Char × List Char) :=
  match s with
  | '[' :: t =>
    let p := takeUntil ']' t
    match p.2 with
    | ']' :: '(' :: v =>
      match stripPre (lit ++ [')']) v with
      | some rest => some (p.1, rest)
      | none => none
    | _ => none
  | _ => none

theorem tryMatchImage_rest_lt {lit s a rest : List Char}
    (h : tryMatchImage lit s = some (a, rest)) : rest.length < s.length := by
  unfold tryMatchImage at h
  split at h
  · rename_i t
    dsimp only at h
    split at h
    · rename_i v hp
      split at h
      · rename_i r hs
        simp only [Option.some.injEq, Prod.mk.injEq] at h
        have hv := stripPre_eq_append hs
        have ht := takeUntil_append ']' t
        rw [hp] at ht
        have hlv := congrArg List.length hv
        have hlt := congrArg List.length ht
        simp at hlv hlt
        rw [h.2] at hlv
        simp
        omega
      · simp at h
    · simp at h
  · simp at h

theorem tryMatchLink_rest_lt {lit s a rest : List Char}
    (h : tryMatchLink lit s = some (a, rest)) : rest.length < s.length := by
  unfold tryMatchLink at h
  split at h
  · rename_i t
    dsimp only at h
    split at h
    · rename_i v hp
      split at h
      · rename_i r hs
        simp only [Option.some.injEq, Prod.mk.injEq] at h
        have hv := stripPre_eq_append hs
        have ht := takeUntil_append ']' t
        rw [hp] at ht
        have hlv := congrArg List.length hv
        have hlt := congrArg List.length ht
        simp at hlv hlt
        rw [h.2] at hlv
        simp
        omega
      · simp at h
    · simp at h
  · simp at h

/-- The image substitution pass: `re.sub` over the whole text. -/
def subImageScan (lit url : List Char) (s : List Char) : List Char :=
  match h : tryMatchImage lit s with
  | some pr => '!' :: '[' :: pr.1 ++ ']' :: '(' :: url ++ ')' :: subImageScan lit url pr.2
  | none =>
    match s with
    | [] => []
    | c :: t => c :: subImageScan lit url t
  termination_by s.length
  decreasing_by
  · exact @tryMatchImage_rest_lt _ _ pr.1 pr.2 (by simpa using h)
  · simp

/-- `replace_link` (lines 66-72): strip the link text, keep only its last
path component when it contains `/`, and append the byte size. -/
def linkReplacement (text : List Char) (url : List Char) (size : Nat) : List Char :=
  let lt := pyStrip text
  let fn := if '/' ∈ lt then pathName lt else lt
  '[' :: fn ++ ' ' :: natChars size ++ ']' :: '(' :: url ++ [')']

/-- The link substitution pass: `re.sub` with the `replace_link` callback. -/
def subLinkScan (lit url : List Char) (size : Nat) (s : List Char) : List Char :=
  match h : tryMatchLink lit s with
  | some pr => linkReplacement pr.1 url size ++ subLinkScan lit url size pr.2
  | none =>
    match s with
    | [] => []
    | c :: t => c :: subLinkScan lit url size t
  termination_by s.length
  decreasing_by
  · exact @tryMatchLink_rest_lt _ _ pr.1 pr.2 (by simpa using h)
  · simp

/-- One spelling of one mapping entry: the image pass followed by the link
pass (lines 52-78). -/
def applySpelling (lit url : List Char) (size : Nat) (s : List Char) : List Char :=
  subLinkScan lit url size (subImageScan lit url s)

/-- One mapping entry: the three spellings in source order
`[path, "/"+path, "//"+path]` (lines 46-50). -/
def applyEntry (path url : List Char) (size : Nat) (s : List Char) : List Char :=
  applySpelling ('/' :: '/' :: path) url size
    (applySpelling ('/' :: path) url size
      (applySpelling path url size s))

/-- The full `replace_attachment_urls` body over an insertion-ordered
mapping (Python dicts preserve insertion order). -/
def replaceCore (mapping : List (List Char × List Char × Nat)) (s : List Char) : List Char :=
  mapping.foldl (fun acc e => applyEntry e.1 e.2.1 e.2.2 acc) s

/-- `MarkdownTransformer.replace_attachment_urls`. -/
def replace_attachment_urls (content : String)
    (url_mapping : List (String × String × Nat)) : String :=
  (replaceCore (url_mapping.map (fun e => (e.1.toList, e.2.1.toList, e.2.2)))
    content.toList).asString

/-! `MarkdownTransformer.convert_details_to_headings` (lines 82-117):
`re.sub(r"<details>\s*<summary>([^<]+)</summary>\s*(.*?)</details>",
replace_details, content, flags=re.DOTALL | re.IGNORECASE)` with
`replace_details` producing `f"### {title.strip()}\n\n{inner.strip()}"`.
The pattern is deterministic: `[^<]+` is bounded by the mandatory `<` of
`</summary>`, each `\s*` is bounded because the following literal starts
with the non-whitespace `<`, and the lazy `(.*?)` stops at the first
case-insensitive `</details>`. -/

/-- Match the details pattern at the head of `s`: returns
(title group, body group, rest after the match). -/
def tryMatchDetails (s : List Char) : Option (List Char × List Char × List Char) :=
  match stripCIPre "<details>".toList s with
  | none => none
  | some s1 =>
    match stripCIPre "<summary>".toList (s1.dropWhile pyIsSpace) with
    | none => none
    | some s3 =>
      let p := takeUntil '<' s3
      if p.1 = [] then none
      else
        match stripCIPre "</summary>".toList p.2 with
        | none => none
        | some s5 =>
          match findCISub "</details>".toList (s5.dropWhile pyIsSpace) with
          | none => none
          | some br => some (p.1, br.1, br.2)

theorem stripCIPre_length :
    ∀ {p s r : List Char}, stripCIPre p s = some r → r.length + p.length = s.length := by
  intro p
  induction p with
  | nil => intro s r h; simp [stripCIPre] at h; simp [h]
  | cons c t ih =>
    intro s r h
    match s with
    | [] => simp [stripCIPre] at h
    | d :: s' =>
      simp only [stripCIPre] at h
      split at h
      · have := ih h
        simp
        omega
      · simp at h

theorem findCISub_length {pat : List Char} (hpat : pat ≠ []) :
    ∀ {s a b : List Char}, findCISub pat s = some (a, b) →
      a.length + pat.length + b.length = s.length := by
  intro s
  induction s with
  | nil =>
    intro a b h
    match pat, hpat with
    | p :: ps, _ => simp [findCISub, stripCIPre] at h
  | cons c t ih =>
    intro a b h
    unfold findCISub at h
    split at h
    · rename_i r hs
      simp only [Option.some.injEq, Prod.mk.injEq] at h
      obtain ⟨ha, hb⟩ := h
      subst hb
      have hlen := stripCIPre_length hs
      simp at hlen
      rw [← ha]
      simp
      omega
    · simp only [Option.map_eq_some'] at h
      obtain ⟨pr, hpr, heq⟩ := h
      have hlen := ih hpr
      simp only [Prod.mk.injEq] at heq
      obtain ⟨ha, hb⟩ := heq
      subst hb
      rw [← ha]
      simp
      omega

theorem tryMatchDetails_rest_lt {s ti bo rest : List Char}
    (h : tryMatchDetails s = some (ti, bo, rest)) : rest.length < s.length := by
  unfold tryMatchDetails at h
  split at h
  · simp at h
  · rename_i s1 h1
    split at h
    · simp at h
    · rename_i s3 h3
      dsimp only at h
      split at h
      · simp at h
      · rename_i hne
        split at h
        · simp at h
        · rename_i s5 h5
          split at h
          · simp at h
          · rename_i br hbr
            simp only [Option.some.injEq, Prod.mk.injEq] at h
            have l1 := stripCIPre_length h1
            have l3 := stripCIPre_length h3
            have l5 := stripCIPre_length h5
            have lbr := findCISub_length (by decide) hbr
            rw [h.2.2] at lbr
            have d1 : (s1.dropWhile pyIsSpace).length ≤ s1.length :=
              (List.dropWhile_sublist _).length_le
            have d5 : (s5.dropWhile pyIsSpace).length ≤ s5.length :=
              (List.dropWhile_sublist _).length_le
            have ht := congrArg List.length (takeUntil_append '<' s3)
            simp at ht
            have hp2 : (takeUntil '<' s3).2.length ≤ s3.length := by omega
            simp at l1 l3 l5 lbr
            omega

/-- The details substitution pass (`re.sub` scanning). -/
def detailsScan (s : List Char) : List Char :=
  match h : tryMatchDetails s with
  | some r =>
    '#' :: '#' :: '#' :: ' ' :: pyStrip r.1 ++ '\n' :: '\n' :: pyStrip r.2.1 ++
      detailsScan r.2.2
  | none =>
    match s with
    | [] => []
    | c :: t => c :: detailsScan t
  termination_by s.length
  decreasing_by
  · exact @tryMatchDetails_rest_lt _ r.1 r.2.1 r.2.2
      (by simpa using h)
  · simp

/-- `MarkdownTransformer.convert_details_to_headings`. -/
def convert_details_to_headings (content : String) : String :=
  (detailsScan content.toList).asString

/-- `MarkdownTransformer.transform_content` (lines 119-140): callout
rewrite first, then URL replacement. -/
def transform_content (content : String)
    (url_mapping : List (String × String × Nat)) : String :=
  replace_attachment_urls (convert_details_to_headings content) url_mapping

/-! ### Export reader (`docmost_parser.py`)

Paths are modelled as segment lists.  Markdown files are given relative to
the detected logical root (everything downstream of root detection only
uses paths relative to the root: `relative_to(root_dir)` for the level,
and parent/child comparisons between paths that share the root prefix).
`md_file.parents` of the real (absolute) path contributes exactly the
directory segments below the root plus the temp-dir ancestors; the
temp dir created by `tempfile.mkdtemp(prefix="docmost_export_")` has no
component named `files`, so the `files`-exclusion test only sees the
relative directory segments. -/

/-- Index of the last `.` in a name, if any (`str.rfind`). -/
def rfindIdx (d : Char) (l : List Char) : Option Nat :=
  match l.reverse.findIdx? (· = d) with
  | none => none
  | some k => some (l.length - 1 - k)

/-- `pathlib` suffix rule: position `i` of the last dot counts as a suffix
only when `0 < i < len - 1`. -/
def pySuffixIdx (n : List Char) : Option Nat :=
  match rfindIdx '.' n with
  | none => none
  | some i => if 0 < i ∧ i < n.length - 1 then some i else none

/-- `pathlib` `stem`: the final component without its suffix. -/
def pyStem (n : List Char) : List Char :=
  match pySuffixIdx n with
  | none => n
  | some i => n.take i

def pyStemS (n : String) : String := (pyStem n.toList).asString

/-- `with_suffix(".md")` applied to a name: stem + ".md". -/
def mdNameS (n : String) : String := (pyStem n.toList).asString ++ ".md"

/-- `parent_dir.with_suffix(".md")` on a segment-list path: rewrite the
final segment. -/
def withSuffixMdPath : List String → List String
  | [] => []
  | [x] => [mdNameS x]
  | x :: xs => x :: withSuffixMdPath xs

/-- `pathlib` `parents` of a relative path: all ancestor paths from the
nearest (`s.dropLast`) down to `.` (modelled as `[]`).  Stated structurally:
the parents of `x :: xs` are the parents of `xs` each prefixed with `x`,
followed by the top `.` entry. -/
def pathParents : List String → List (List String)
  | [] => []
  | x :: xs => (pathParents xs).map (fun q => x :: q) ++ [[]]

/-- A parsed page (`DocmostPage`): `file_path` is kept relative to the
logical root. -/
structure DPage where
  title : String
  path : List String
  content : String
  parentPath : Option (List String)
  level : Nat
deriving DecidableEq

/-- Last segment of a nonempty path. -/
def lastSeg (p : List String) : String := p.getLast?.getD ""

/-- Build one page record for a markdown file (lines 100-121):
title from the stem, parent path unless directly under the root, level
from `len(relative_path.parents) - 1`. -/
def mkPage (content : List String → String) (p : List String) : DPage :=
  { title := pyStemS (lastSeg p)
    path := p
    content := content p
    parentPath := if p.dropLast = [] then none else some p.dropLast
    level := (pathParents p).length - 1 }

/-- The markdown-file scan (lines 95-124): skip any file that has a
directory literally named `files` among its ancestors, then build pages. -/
def parsePages (content : List String → String) (mdFiles : List (List String)) :
    List DPage :=
  (mdFiles.filter (fun p => ¬ p.dropLast.contains "files")).map (mkPage content)

/-- The hierarchy-linking loop (lines 126-139), presented as the list of
(parent path, child path) links it creates: a page at level > 0 is linked
iff some parsed page's file path equals the containing directory
reinterpreted as a `.md` path (`parent_md in page_by_path`). -/
def buildLinks (pages : List DPage) : List (List String × List String) :=
  pages.filterMap (fun pg =>
    if pg.level = 0 then none
    else
      let parentMd := withSuffixMdPath pg.path.dropLast
      if pages.any (fun q => q.path = parentMd) then some (parentMd, pg.path)
      else none)

/-- `root_pages` accumulation (lines 128-131). -/
def rootPages (pages : List DPage) : List DPage :=
  pages.filter (fun pg => pg.level = 0)

/-- The `(level, title)` sort key ordering (line 142); Python's sort is
stable. -/
def pageLE (p q : DPage) : Bool :=
  p.level < q.level || (p.level = q.level && decide (p.title ≤ q.title))

def sortPages (pages : List DPage) : List DPage := pages.mergeSort pageLE

/-- What `zipfile.extractall` produced, as the parser observes it:
the top-level entries of the extraction dir, the archive's base name, the
markdown files relative to the logical root, and their contents. -/
structure ExtractedZip where
  topDirNames : List String
  topFileNames : List String
  zipStem : String
  mdFilesRel : List (List String)
  content : List String → String

/-- Root/space-name detection (lines 68-80): a single top-level directory
and no top-level files makes that directory the logical root; otherwise
the extraction dir itself is the root and the ZIP stem names the space.
The root is reported as a path relative to the extraction dir. -/
def detectRoot (z : ExtractedZip) : List String × String :=
  match z.topDirNames, z.topFileNames with
  | [d], [] => ([d], d)
  | _, _ => ([], z.zipStem)

/-- `DocmostExport`. -/
structure DExport where
  space_name : String
  root_pages : List DPage
  all_pages : List DPage
  attachments_dir : Option (List String)
deriving Inhabited

/-- `DocmostParser.parse` (lines 48-150), modulo extraction I/O:
note line 85 sets `attachments_dir = root_dir` unconditionally. -/
def docmostParse (z : ExtractedZip) : DExport :=
  let rd := detectRoot z
  let pages := parsePages z.content z.mdFilesRel
  { space_name := rd.2
    root_pages := rootPages pages
    all_pages := sortPages pages
    attachments_dir := some rd.1 }

/-! ### Validators (`utils/validators.py`) and migration errors -/

inductive MError where
  /-- `ValidationError(f"Attachment file not found: {path}")` (line 53). -/
  | validationNotFound (path : String)
  /-- `ValidationError(... exceeds maximum upload size ...)` carrying the
  offending file, its size and the limit (lines 24-30). -/
  | validationTooLarge (path : String) (size : Nat) (maxSize : Nat)
  /-- any exception escaping the zip parse (`BadZipFile`, read errors). -/
  | parseFailed
  /-- failure of the collection get/create call. -/
  | containerFailed
  /-- `FileNotFoundError` / upload failure for a reference. -/
  | uploadFailed (ref : String)
  /-- `create_document` failure (e.g. exhausted 429 retries). -/
  | docFailed (title : String)
deriving DecidableEq

/-- One attachment file as `find_attachments` reported it, together with
what `Path(...).exists()` / `stat().st_size` observe at validation time. -/
structure FileInfo where
  path : String
  present : Bool
  size : Nat
deriving DecidableEq

/-- `validate_file_size` (lines 13-30). -/
def validate_file_size (f : FileInfo) (maxSize : Nat) : Except MError Unit :=
  if f.size > maxSize then .error (.validationTooLarge f.path f.size maxSize)
  else .ok ()

/-- `validate_all_attachments` (lines 33-59): first missing file raises
not-found, first oversized file raises too-large; otherwise returns
(total files, total bytes). -/
def validate_all_attachments (files : List FileInfo) (maxSize : Nat) :
    Except MError (Nat × Nat) :=
  match files with
  | [] => .ok (0, 0)
  | f :: rest =>
    if ¬ f.present then .error (.validationNotFound f.path)
    else
      match validate_file_size f maxSize with
      | .error e => .error e
      | .ok _ =>
        match validate_all_attachments rest maxSize with
        | .error e => .error e
        | .ok (tf, ts) => .ok (tf + 1, ts + f.size)

/-! ### Attachment handler (`attachment_handler.py`)

`upload_attachments_for_references` (lines 59-122) iterates over the given
reference list as-is — there is no deduplication — resolving each
reference (strategy 1: direct join; strategy 2: `files/<uuid>` search,
abstracted here as a `resolve` oracle since the claims concern the loop
structure), uploading once per iteration, and writing the
`(outline_url, file_size)` pair into the dict under the *reference string
itself* (line 120).  `upload` models `upload_attachment` returning
`(attachment_info.url, file_size)`. -/

/-- Python dict assignment `m[k] = v`: overwrite in place or append. -/
def dictInsert (m : List (String × String × Nat)) (k : String) (v : String × Nat) :
    List (String × String × Nat) :=
  if m.any (fun kv => kv.1 = k) then
    m.map (fun kv => if kv.1 = k then (k, v) else kv)
  else m ++ [(k, v)]

/-- The loop of `upload_attachments_for_references`; also returns the
upload log (the resolved file uploaded at each iteration, in order).
`.error ref` is the `FileNotFoundError` raise (lines 109-112). -/
def uploadRefsLoop (resolve : String → Option String)
    (upload : String → String → String × Nat) :
    List String → List (String × String × Nat) → List String →
      Except String (List (String × String × Nat) × List String)
  | [], m, log => .ok (m, log)
  | ref :: rest, m, log =>
    match resolve ref with
    | none => .error ref
    | some full =>
      let intended := (pathName (ref.toList.dropWhile (· = '/'))).asString
      let res := upload full intended
      uploadRefsLoop resolve upload rest (dictInsert m ref res) (log ++ [full])

/-- `AttachmentHandler.upload_attachments_for_references`. -/
def upload_attachments_for_references (resolve : String → Option String)
    (upload : String → String → String × Nat) (ref_paths : List String) :
    Except String (List (String × String × Nat) × List String) :=
  uploadRefsLoop resolve upload ref_paths [] []

/-! ### Migration orchestrator (`orchestrator.py`), as an event trace

`migrate` (lines 62-208) parses, then inside `try:` validates, sets up the
collection, and loops over the sorted pages; the `finally:` block releases
the extraction directory.  `parse` itself removes the directory when it
raises (parser lines 152-155), and `migrate` calls `parse` *before* its
`try:`, so the `finally:` cleanup runs exactly on the paths where parse
succeeded.  The model records the side effects as an event list. -/

inductive MEvent where
  | mkdtempE
  | rmtreeE
  | apiGetCollection (id : String)
  | apiCreateCollection (name : String)
  | extractRefsE (path : List String)
  | uploadE (ref : String)
  | createDocE (title : String)
deriving DecidableEq

/-- Outcomes of the remote calls the orchestrator makes, supplied as an
oracle: the collection step, each reference upload, each document
creation. -/
structure Oracle where
  getCollection : String → Except MError String
  createCollection : String → Except MError String
  uploadRef : String → Except MError (String × Nat)
  createDoc : Nat → Except MError String

/-- Upload every extracted reference of one page (via
`upload_attachments_for_references`); stops at the first failure. -/
def uploadPageRefs (o : Oracle) : List String → List MEvent × Except MError Unit
  | [] => ([], .ok ())
  | ref :: rest =>
    match o.uploadRef ref with
    | .error e => ([.uploadE ref], .error e)
    | .ok _ =>
      let r := uploadPageRefs o rest
      (.uploadE ref :: r.1, r.2)

/-- The per-page loop (lines 145-192): extraction is attempted whenever
`export.attachments_dir` is set (the guard on line 159), then the
document is created; `idx` counts `create_document` calls. -/
def processPages (o : Oracle) (hasDir : Bool) :
    List DPage → Nat → List MEvent × Except MError Unit
  | [], _ => ([], .ok ())
  | pg :: rest, idx =>
    let extEvs : List MEvent :=
      if hasDir then [.extractRefsE pg.path] else []
    let refs := if hasDir then extract_attachment_references pg.content else []
    let up := uploadPageRefs o refs
    match up.2 with
    | .error e => (extEvs ++ up.1, .error e)
    | .ok _ =>
      match o.createDoc idx with
      | .error _ => (extEvs ++ up.1 ++ [.createDocE pg.title], .error (.docFailed pg.title))
      | .ok _ =>
        let r := processPages o hasDir rest (idx + 1)
        (extEvs ++ up.1 ++ [.createDocE pg.title] ++ r.1, r.2)

/-- The body of `migrate` inside the `try:` (lines 90-204): validation
first (no remote events), then the collection step, then the page loop. -/
def migrateBody (o : Oracle) (export_ : DExport) (files : List FileInfo)
    (maxSize : Nat) (collectionId : Option String) :
    List MEvent × Except MError Unit :=
  let vres : Except MError (Nat × Nat) :=
    if files.isEmpty then .ok (0, 0) else validate_all_attachments files maxSize
  match vres with
  | .error e => ([], .error e)
  | .ok _ =>
    match collectionId with
    | some cid =>
      match o.getCollection cid with
      | .error e => ([.apiGetCollection cid], .error e)
      | .ok _ =>
        let r := processPages o export_.attachments_dir.isSome export_.all_pages 0
        (.apiGetCollection cid :: r.1, r.2)
    | none =>
      match o.createCollection export_.space_name with
      | .error e => ([.apiCreateCollection export_.space_name], .error e)
      | .ok _ =>
        let r := processPages o export_.attachments_dir.isSome export_.all_pages 0
        (.apiCreateCollection export_.space_name :: r.1, r.2)

/-- The whole `migrate` run including `parse` and cleanup:
on parse failure the parser itself removes the temp dir (lines 152-155);
on parse success the orchestrator's `finally:` (lines 206-208) removes it
whatever the body did. -/
def runMigration (o : Oracle) (parseOutcome : Except MError DExport)
    (files : List FileInfo) (maxSize : Nat) (collectionId : Option String) :
    List MEvent × Except MError Unit :=
  match parseOutcome with
  | .error e => ([.mkdtempE, .rmtreeE], .error e)
  | .ok export_ =>
    let r := migrateBody o export_ files maxSize collectionId
    (.mkdtempE :: r.1 ++ [.rmtreeE], r.2)

/-- `DocmostParser.cleanup` (lines 157-165) acting on the
does-the-directory-exist state: returns the new state and whether an
`rmtree` was performed.  Guarded by `exists()`, so it is a no-op on a
missing directory. -/
def cleanupDir (dirAlive : Bool) : Bool × Bool :=
  if dirAlive then (false, true) else (false, false)

/-! ### Fuel-indexed twins of the scanners

The scanners above are defined by well-founded recursion, which the
kernel cannot evaluate on closed terms.  The following structurally
recursive twins take an explicit fuel (any bound on the input length) and
are proved equal to the originals; concrete instances are then settled by
`decide` on the twins. -/

def extractScanF : Nat → List Char → List (List Char)
  | 0, _ => []
  | fuel + 1, s =>
    match tryMatchRef s with
    | some pr => pr.1 :: extractScanF fuel pr.2
    | none =>
      match s with
      | [] => []
      | _ :: t => extractScanF fuel t

def subImageScanF (lit url : List Char) : Nat → List Char → List Char
  | 0, _ => []
  | fuel + 1, s =>
    match tryMatchImage lit s with
    | some pr =>
      '!' :: '[' :: pr.1 ++ ']' :: '(' :: url ++ ')' :: subImageScanF lit url fuel pr.2
    | none =>
      match s with
      | [] => []
      | c :: t => c :: subImageScanF lit url fuel t

def subLinkScanF (lit url : List Char) (size : Nat) : Nat → List Char → List Char
  | 0, _ => []
  | fuel + 1, s =>
    match tryMatchLink lit s with
    | some pr => linkReplacement pr.1 url size ++ subLinkScanF lit url size fuel pr.2
    | none =>
      match s with
      | [] => []
      | c :: t => c :: subLinkScanF lit url size fuel t

def detailsScanF : Nat → List Char → List Char
  | 0, _ => []
  | fuel + 1, s =>
    match tryMatchDetails s with
    | some r =>
      '#' :: '#' :: '#' :: ' ' :: pyStrip r.1 ++ '\n' :: '\n' :: pyStrip r.2.1 ++
        detailsScanF fuel r.2.2
    | none =>
      match s with
      | [] => []
      | c :: t => c :: detailsScanF fuel t

theorem extractScanF_eq :
    ∀ (fuel : Nat) (s : List Char), s.length ≤ fuel → extractScanF fuel s = extractScan s := by
  intro fuel
  induction fuel with
  | zero =>
    intro s hs
    have : s = [] := List.length_eq_zero.mp (Nat.le_zero.mp hs)
    subst this
    rw [extractScan]
    rfl
  | succ fuel ih =>
    intro s hs
    rw [extractScan]
    split
    · rename_i pr htry
      simp only [extractScanF, htry]
      have := @tryMatchRef_rest_lt _ pr.1 pr.2 (by simpa using htry)
      rw [ih pr.2 (by omega)]
    · rename_i htry
      split
      · simp [extractScanF, htry]
      · rename_i c t
        simp only [extractScanF, htry]
        exact ih t (by simp at hs; omega)

theorem subImageScanF_eq (lit url : List Char) :
    ∀ (fuel : Nat) (s : List Char), s.length ≤ fuel →
      subImageScanF lit url fuel s = subImageScan lit url s := by
  intro fuel
  induction fuel with
  | zero =>
    intro s hs
    have : s = [] := List.length_eq_zero.mp (Nat.le_zero.mp hs)
    subst this
    rw [subImageScan]
    rfl
  | succ fuel ih =>
    intro s hs
    rw [subImageScan]
    split
    · rename_i pr htry
      simp only [subImageScanF, htry]
      have := @tryMatchImage_rest_lt _ _ pr.1 pr.2 (by simpa using htry)
      rw [ih pr.2 (by omega)]
    · rename_i htry
      split
      · simp [subImageScanF, htry]
      · rename_i c t
        simp only [subImageScanF, htry]
        rw [ih t (by simp at hs; omega)]

theorem subLinkScanF_eq (lit url : List Char) (size : Nat) :
    ∀ (fuel : Nat) (s : List Char), s.length ≤ fuel →
      subLinkScanF lit url size fuel s = subLinkScan lit url size s := by
  intro fuel
  induction fuel with
  | zero =>
    intro s hs
    have : s = [] := List.length_eq_zero.mp (Nat.le_zero.mp hs)
    subst this
    rw [subLinkScan]
    rfl
  | succ fuel ih =>
    intro s hs
    rw [subLinkScan]
    split
    · rename_i pr htry
      simp only [subLinkScanF, htry]
      have := @tryMatchLink_rest_lt _ _ pr.1 pr.2 (by simpa using htry)
      rw [ih pr.2 (by omega)]
    · rename_i htry
      split
      · simp [subLinkScanF, htry]
      · rename_i c t
        simp only [subLinkScanF, htry]
        rw [ih t (by simp at hs; omega)]

theorem detailsScanF_eq :
    ∀ (fuel : Nat) (s : List Char), s.length ≤ fuel → detailsScanF fuel s = detailsScan s := by
  intro fuel
  induction fuel with
  | zero =>
    intro s hs
    have : s = [] := List.length_eq_zero.mp (Nat.le_zero.mp hs)
    subst this
    rw [detailsScan]
    rfl
  | succ fuel ih =>
    intro s hs
    rw [detailsScan]
    split
    · rename_i r htry
      simp only [detailsScanF, htry]
      have := @tryMatchDetails_rest_lt _ r.1 r.2.1 r.2.2
        (by simpa using htry)
      rw [ih r.2.2 (by omega)]
    · rename_i htry
      split
      · simp [detailsScanF, htry]
      · rename_i c t
        simp only [detailsScanF, htry]
        rw [ih t (by simp at hs; omega)]

/-- Closed-term evaluator for `extract_attachment_references`. -/
theorem extract_attachment_references_eval (s : String) :
    extract_attachment_references s =
      (extractScanF s.toList.length s.toList).map
        (fun p => (p.dropWhile (fun c => c = '/')).asString) := by
  rw [extract_attachment_references, extractScanF_eq s.toList.length s.toList le_rfl]

/-- Closed-term evaluator for `convert_details_to_headings`. -/
theorem convert_details_to_headings_eval (s : String) :
    convert_details_to_headings s = (detailsScanF s.toList.length s.toList).asString := by
  rw [convert_details_to_headings, detailsScanF_eq s.toList.length s.toList le_rfl]

/-- Closed-term evaluator for one spelling pass of
`replace_attachment_urls` (image pass then link pass, fuelled). -/
def applySpellingF (lit url : List Char) (size : Nat) (s : List Char) : List Char :=
  subLinkScanF lit url size
    (subImageScanF lit url s.length s).length (subImageScanF lit url s.length s)

theorem applySpellingF_eq (lit url : List Char) (size : Nat) (s : List Char) :
    applySpellingF lit url size s = applySpelling lit url size s := by
  rw [applySpellingF, applySpelling, subImageScanF_eq lit url s.length s le_rfl,
    subLinkScanF_eq lit url size _ _ le_rfl]

def applyEntryF (path url : List Char) (size : Nat) (s : List Char) : List Char :=
  applySpellingF ('/' :: '/' :: path) url size
    (applySpellingF ('/' :: path) url size
      (applySpellingF path url size s))

theorem applyEntryF_eq (path url : List Char) (size : Nat) (s : List Char) :
    applyEntryF path url size s = applyEntry path url size s := by
  rw [applyEntryF, applyEntry, applySpellingF_eq, applySpellingF_eq, applySpellingF_eq]

theorem replace_attachment_urls_single_eval (content : String)
    (path url : String) (size : Nat) :
    replace_attachment_urls content [(path, url, size)] =
      (applyEntryF path.toList url.toList size content.toList).asString := by
  rw [replace_attachment_urls, applyEntryF_eq]
  rfl

/-! ### Supporting lemmas for the attachment-handler loop -/

theorem dictInsert_keys (m : List (String × String × Nat)) (k : String)
    (v : String × Nat) :
    (dictInsert m k v).map Prod.fst =
      if m.any (fun kv => kv.1 = k) then m.map Prod.fst
      else m.map Prod.fst ++ [k] := by
  unfold dictInsert
  split
  · rw [List.map_map]
    apply List.map_congr_left
    intro kv _
    by_cases h : kv.1 = k
    · simp [h]
    · simp [h]
  · simp

theorem dictInsert_mem_keys (m : List (String × String × Nat)) (k : String)
    (v : String × Nat) (k' : String) :
    k' ∈ (dictInsert m k v).map Prod.fst ↔ k' ∈ m.map Prod.fst ∨ k' = k := by
  rw [dictInsert_keys]
  split
  · rename_i hany
    rw [List.any_eq_true] at hany
    obtain ⟨kv, hkv, hk⟩ := hany
    simp at hk
    constructor
    · exact Or.inl
    · rintro (h | rfl)
      · exact h
      · rw [← hk]; exact List.mem_map_of_mem Prod.fst hkv
  · simp

theorem dictInsert_nodup_keys (m : List (String × String × Nat)) (k : String)
    (v : String × Nat) (h : (m.map Prod.fst).Nodup) :
    ((dictInsert m k v).map Prod.fst).Nodup := by
  rw [dictInsert_keys]
  split
  · exact h
  · rename_i hany
    have hnotin : k ∉ m.map Prod.fst := by
      simp only [List.mem_map, not_exists, not_and]
      intro kv hkv hk
      exact hany (List.any_eq_true.mpr ⟨kv, hkv, by simp [hk]⟩)
    refine List.Nodup.append h (List.nodup_singleton k) ?_
    intro a ha hb
    simp at hb
    subst hb
    exact hnotin ha

theorem uploadRefsLoop_spec (resolve : String → Option String)
    (upload : String → String → String × Nat) :
    ∀ (refs : List String) (m : List (String × String × Nat)) (log : List String),
      (∀ r ∈ refs, (resolve r).isSome) →
      ∃ m' log', uploadRefsLoop resolve upload refs m log = .ok (m', log') ∧
        log'.length = log.length + refs.length ∧
        (∀ k, k ∈ m'.map Prod.fst ↔ k ∈ m.map Prod.fst ∨ k ∈ refs) ∧
        ((m.map Prod.fst).Nodup → (m'.map Prod.fst).Nodup) := by
  intro refs
  induction refs with
  | nil =>
    intro m log _
    exact ⟨m, log, rfl, by simp, by simp, fun h => h⟩
  | cons ref rest ih =>
    intro m log hres
    have hr : (resolve ref).isSome := hres ref (List.mem_cons_self _ _)
    rcases hfull : resolve ref with _ | full
    · rw [hfull] at hr; simp at hr
    · obtain ⟨m', log', heq, hlen, hkeys, hnd⟩ :=
        ih (dictInsert m ref (upload full
            ((pathName (ref.toList.dropWhile (· = '/'))).asString)))
          (log ++ [full]) (fun r hrr => hres r (List.mem_cons_of_mem _ hrr))
      refine ⟨m', log', ?_, ?_, ?_, ?_⟩
      · rw [uploadRefsLoop, hfull]
        exact heq
      · rw [hlen]; simp; omega
      · intro k
        rw [hkeys k, dictInsert_mem_keys]
        constructor
        · rintro ((h | rfl) | h)
          · exact Or.inl h
          · exact Or.inr (List.mem_cons_self _ _)
          · exact Or.inr (List.mem_cons_of_mem _ h)
        · rintro (h | h)
          · exact Or.inl (Or.inl h)
          · rcases List.mem_cons.mp h with rfl | h
            · exact Or.inl (Or.inr rfl)
            · exact Or.inr h
      · intro hmnd
        exact hnd (dictInsert_nodup_keys m ref _ hmnd)

/-- C1 (counterexample): a body containing the same reference twice leads
to *two* uploads, not one: `extract_attachment_references` keeps the
duplicate, and the upload loop has no deduplication. -/
theorem c1_counterexample :
    extract_attachment_references "![a](files/u/f.png) ![b](files/u/f.png)" =
      ["files/u/f.png", "files/u/f.png"] ∧
    upload_attachments_for_references (fun _ => some "pool/files/u/f.png")
      (fun _ _ => ("https://o/u", 7))
      (extract_attachment_references "![a](files/u/f.png) ![b](files/u/f.png)") =
      .ok ([("files/u/f.png", "https://o/u", 7)],
        ["pool/files/u/f.png", "pool/files/u/f.png"]) ∧
    ["pool/files/u/f.png", "pool/files/u/f.png"].length ≠ 1 := by
  have hrefs : extract_attachment_references "![a](files/u/f.png) ![b](files/u/f.png)" =
      ["files/u/f.png", "files/u/f.png"] := by
    rw [extract_attachment_references_eval]
    rfl
  refine ⟨hrefs, ?_, by decide⟩
  rw [hrefs]
  rfl

/-- C1 (amended): uploads are performed once per *occurrence* of a
reference extracted from the page body (a reference appearing twice is
uploaded twice), while the per-page URL mapping is keyed by the extracted
reference strings, one entry per distinct reference. -/
theorem c1_upload_per_occurrence (resolve : String → Option String)
    (upload : String → String → String × Nat) (ref_paths : List String)
    (hres : ∀ r ∈ ref_paths, (resolve r).isSome) :
    ∃ m log, upload_attachments_for_references resolve upload ref_paths = .ok (m, log) ∧
      log.length = ref_paths.length ∧
      (∀ k, k ∈ m.map Prod.fst ↔ k ∈ ref_paths) ∧
      (m.map Prod.fst).Nodup := by
  obtain ⟨m, log, heq, hlen, hkeys, hnd⟩ :=
    uploadRefsLoop_spec resolve upload ref_paths [] [] hres
  refine ⟨m, log, heq, by simpa using hlen, ?_, hnd (by simp)⟩
  intro k
  rw [hkeys k]
  simp

/-- Witness for C1's amended statement at a concrete duplicate-bearing
reference list. -/
theorem c1_upload_per_occurrence_witness :
    ∃ m log,
      upload_attachments_for_references (fun _ => some "pool/files/u/f.png")
        (fun _ _ => ("https://o/u", 7)) ["files/u/f.png", "files/u/f.png"] =
        .ok (m, log) ∧
      log.length = ["files/u/f.png", "files/u/f.png"].length ∧
      (∀ k, k ∈ m.map Prod.fst ↔ k ∈ ["files/u/f.png", "files/u/f.png"]) ∧
      (m.map Prod.fst).Nodup :=
  c1_upload_per_occurrence (fun _ => some "pool/files/u/f.png")
    (fun _ _ => ("https://o/u", 7)) ["files/u/f.png", "files/u/f.png"]
    (by intro r _; rfl)

/-! ### Claims about the export reader -/

theorem pathParents_length : ∀ s : List String, (pathParents s).length = s.length := by
  intro s
  induction s with
  | nil => simp [pathParents]
  | cons x xs ih => simp [pathParents, ih]

/-- C8: a page `N` directories below the logical root is reported at
nesting level `N`; in particular a page directly under the root has
level 0.  The level of every parsed page equals the number of directory
segments of its root-relative path. -/
theorem c8_nesting_level (z : ExtractedZip)
    (hne : ∀ p ∈ z.mdFilesRel, p ≠ []) :
    ∀ pg ∈ (docmostParse z).all_pages, pg.level = pg.path.dropLast.length ∧
      (pg.path.dropLast = [] → pg.level = 0) := by
  intro pg hpg
  have hpg' : pg ∈ parsePages z.content z.mdFilesRel := by
    have : pg ∈ sortPages (parsePages z.content z.mdFilesRel) := hpg
    rw [sortPages, List.mem_mergeSort] at this
    exact this
  rw [parsePages, List.mem_map] at hpg'
  obtain ⟨p, hpf, rfl⟩ := hpg'
  have hp : p ∈ z.mdFilesRel := List.mem_of_mem_filter hpf
  have hpne : p ≠ [] := hne p hp
  have hpos : 0 < p.length := List.length_pos.mpr hpne
  constructor
  · show (pathParents p).length - 1 = p.dropLast.length
    rw [pathParents_length, List.length_dropLast]
  · intro hd
    have hd' : p.dropLast = [] := hd
    show (pathParents p).length - 1 = 0
    rw [pathParents_length]
    have hlen := congrArg List.length hd'
    rw [List.length_dropLast] at hlen
    simp at hlen
    omega

/-- Witness for C8 at a concrete export: `a/b/c.md` sits two directories
below the root and gets level 2. -/
theorem c8_nesting_level_witness :
    (∀ p ∈ [["a", "b", "c.md"], ["r.md"]], p ≠ ([] : List String)) ∧
    ∀ pg ∈ (docmostParse
        ⟨["root"], [], "z", [["a", "b", "c.md"], ["r.md"]], fun _ => ""⟩).all_pages,
      pg.level = pg.path.dropLast.length ∧ (pg.path.dropLast = [] → pg.level = 0) :=
  ⟨by decide, c8_nesting_level
    ⟨["root"], [], "z", [["a", "b", "c.md"], ["r.md"]], fun _ => ""⟩ (by decide)⟩

/-- C3: a parsed page at level > 0 is attached as a child if and only if
the set of parsed pages contains one whose file path equals the page's
containing directory reinterpreted as a markdown file path
(`parent_dir.with_suffix(".md")`); a page with no such parent gets no
parent link and is not a root page (it appears only in the flat list). -/
theorem c3_parent_link_iff (content : List String → String)
    (mdFiles : List (List String)) (pg : DPage)
    (hpg : pg ∈ parsePages content mdFiles) (hlvl : 0 < pg.level) :
    ((∃ q ∈ parsePages content mdFiles,
        q.path = withSuffixMdPath pg.path.dropLast) ↔
      (withSuffixMdPath pg.path.dropLast, pg.path) ∈
        buildLinks (parsePages content mdFiles))
    ∧ ((¬ ∃ q ∈ parsePages content mdFiles,
          q.path = withSuffixMdPath pg.path.dropLast) →
        pg ∉ rootPages (parsePages content mdFiles) ∧
        ∀ pr, (pr, pg.path) ∉ buildLinks (parsePages content mdFiles)) := by
  have hlvl' : ¬ pg.level = 0 := by omega
  constructor
  · constructor
    · rintro ⟨q, hq, hqp⟩
      rw [buildLinks, List.mem_filterMap]
      refine ⟨pg, hpg, ?_⟩
      rw [if_neg hlvl', if_pos]
      rw [List.any_eq_true]
      exact ⟨q, hq, by simp [hqp]⟩
    · intro hmem
      rw [buildLinks, List.mem_filterMap] at hmem
      obtain ⟨pg', hpg', hf⟩ := hmem
      split at hf
      · simp at hf
      · dsimp only at hf
        split at hf
        · rename_i hany
          simp only [Option.some.injEq, Prod.mk.injEq] at hf
          rw [List.any_eq_true] at hany
          obtain ⟨q, hq, hqp⟩ := hany
          simp at hqp
          refine ⟨q, hq, ?_⟩
          rw [hqp, hf.2]
        · simp at hf
  · intro hno
    constructor
    · intro hroot
      rw [rootPages, List.mem_filter] at hroot
      have : pg.level = 0 := by simpa using hroot.2
      exact hlvl' this
    · intro pr hmem
      rw [buildLinks, List.mem_filterMap] at hmem
      obtain ⟨pg', hpg', hf⟩ := hmem
      split at hf
      · simp at hf
      · dsimp only at hf
        split at hf
        · rename_i hany
          simp only [Option.some.injEq, Prod.mk.injEq] at hf
          rw [List.any_eq_true] at hany
          obtain ⟨q, hq, hqp⟩ := hany
          simp at hqp
          apply hno
          refine ⟨q, hq, ?_⟩
          rw [hqp, hf.2]
        · simp at hf

/-- Witness for C3: in an export with `root.md` and `root/child.md` the
child (level 1) is linked under `root.md`; proved by instantiating
`c3_parent_link_iff` at that concrete export. -/
theorem c3_parent_link_iff_witness :
    (mkPage (fun _ => "") ["root", "child.md"] ∈
      parsePages (fun _ => "") [["root.md"], ["root", "child.md"]]) ∧
    (0 < (mkPage (fun _ => "") ["root", "child.md"]).level) ∧
    (withSuffixMdPath (mkPage (fun _ => "") ["root", "child.md"]).path.dropLast,
      (mkPage (fun _ => "") ["root", "child.md"]).path) ∈
      buildLinks (parsePages (fun _ => "") [["root.md"], ["root", "child.md"]]) := by
  refine ⟨by decide, by decide, ?_⟩
  exact (c3_parent_link_iff (fun _ => "") [["root.md"], ["root", "child.md"]]
      (mkPage (fun _ => "") ["root", "child.md"]) (by decide) (by decide)).1.mp
    ⟨mkPage (fun _ => "") ["root.md"], by decide, by decide⟩

/-! ### Claims about the orchestrator -/

theorem validate_all_attachments_tooLarge (maxSize : Nat) :
    ∀ files : List FileInfo, (∀ f ∈ files, f.present = true) →
      (∃ f ∈ files, f.size > maxSize) →
      ∃ f ∈ files, f.size > maxSize ∧
        validate_all_attachments files maxSize =
          .error (.validationTooLarge f.path f.size maxSize) := by
  intro files
  induction files with
  | nil => rintro _ ⟨f, hf, _⟩; simp at hf
  | cons f rest ih =>
    intro hall hex
    have hp : f.present = true := hall f (List.mem_cons_self _ _)
    by_cases hsz : f.size > maxSize
    · refine ⟨f, List.mem_cons_self _ _, hsz, ?_⟩
      rw [validate_all_attachments]
      rw [if_neg (by simp [hp])]
      rw [validate_file_size, if_pos hsz]
    · obtain ⟨g, hg, hgsz⟩ := hex
      rcases List.mem_cons.mp hg with rfl | hg
      · exact absurd hgsz hsz
      · obtain ⟨g', hg', hg'sz, heq⟩ :=
          ih (fun x hx => hall x (List.mem_cons_of_mem _ hx)) ⟨g, hg, hgsz⟩
        refine ⟨g', List.mem_cons_of_mem _ hg', hg'sz, ?_⟩
        rw [validate_all_attachments]
        rw [if_neg (by simp [hp])]
        rw [validate_file_size, if_neg hsz]
        rw [heq]

/-- C4: if every pooled attachment file exists and some file exceeds the
configured maximum size, the migration fails with the file-too-large
validation error and the event trace contains no container-setup call at
all (validation strictly precedes container setup, so a validation
failure leaves no partial remote state). -/
theorem c4_validation_before_container (o : Oracle) (export_ : DExport)
    (files : List FileInfo) (maxSize : Nat) (cid : Option String)
    (hall : ∀ f ∈ files, f.present = true)
    (hex : ∃ f ∈ files, f.size > maxSize) :
    ∃ f ∈ files, f.size > maxSize ∧
      runMigration o (.ok export_) files maxSize cid =
        ([.mkdtempE, .rmtreeE], .error (.validationTooLarge f.path f.size maxSize)) ∧
      (∀ i, MEvent.apiGetCollection i ∉ (runMigration o (.ok export_) files maxSize cid).1) ∧
      (∀ nm, MEvent.apiCreateCollection nm ∉
        (runMigration o (.ok export_) files maxSize cid).1) := by
  obtain ⟨f, hf, hfsz, heq⟩ := validate_all_attachments_tooLarge maxSize files hall hex
  have hne : ¬ files.isEmpty := by
    cases files with
    | nil => simp at hf
    | cons a l => simp
  have hbody : migrateBody o export_ files maxSize cid =
      ([], .error (.validationTooLarge f.path f.size maxSize)) := by
    rw [migrateBody.eq_def]
    dsimp only
    rw [if_neg hne, heq]
  have hrun : runMigration o (.ok export_) files maxSize cid =
      ([.mkdtempE, .rmtreeE], .error (.validationTooLarge f.path f.size maxSize)) := by
    rw [runMigration, hbody]
    rfl
  refine ⟨f, hf, hfsz, hrun, ?_, ?_⟩
  · intro i hmem
    rw [hrun] at hmem
    simp at hmem
  · intro nm hmem
    rw [hrun] at hmem
    simp at hmem

/-- Witness for C4 at a concrete oversized file. -/
theorem c4_validation_before_container_witness :
    ∃ f ∈ ([⟨"pool/files/u/big.bin", true, 30⟩] : List FileInfo), f.size > 25 ∧
      runMigration ⟨fun _ => .ok "c", fun _ => .ok "c", fun _ => .ok ("u", 1),
          fun _ => .ok "d"⟩
        (.ok ⟨"s", [], [], some []⟩)
        ([⟨"pool/files/u/big.bin", true, 30⟩] : List FileInfo) 25 none =
        ([.mkdtempE, .rmtreeE],
          .error (.validationTooLarge f.path f.size 25)) ∧
      (∀ i, MEvent.apiGetCollection i ∉
        (runMigration ⟨fun _ => .ok "c", fun _ => .ok "c", fun _ => .ok ("u", 1),
            fun _ => .ok "d"⟩
          (.ok ⟨"s", [], [], some []⟩)
          ([⟨"pool/files/u/big.bin", true, 30⟩] : List FileInfo) 25 none).1) ∧
      (∀ nm, MEvent.apiCreateCollection nm ∉
        (runMigration ⟨fun _ => .ok "c", fun _ => .ok "c", fun _ => .ok ("u", 1),
            fun _ => .ok "d"⟩
          (.ok ⟨"s", [], [], some []⟩)
          ([⟨"pool/files/u/big.bin", true, 30⟩] : List FileInfo) 25 none).1) :=
  c4_validation_before_container
    ⟨fun _ => .ok "c", fun _ => .ok "c", fun _ => .ok ("u", 1), fun _ => .ok "d"⟩
    ⟨"s", [], [], some []⟩ ([⟨"pool/files/u/big.bin", true, 30⟩] : List FileInfo) 25 none
    (by decide) ⟨⟨"pool/files/u/big.bin", true, 30⟩, by decide, by decide⟩

theorem uploadPageRefs_no_tmp (o : Oracle) :
    ∀ refs : List String, MEvent.rmtreeE ∉ (uploadPageRefs o refs).1 ∧
      MEvent.mkdtempE ∉ (uploadPageRefs o refs).1 := by
  intro refs
  induction refs with
  | nil => simp [uploadPageRefs]
  | cons ref rest ih =>
    rw [uploadPageRefs]
    rcases h : o.uploadRef ref with e | v
    · simp
    · dsimp only
      simp only [List.mem_cons, not_or]
      exact ⟨⟨by simp, ih.1⟩, ⟨by simp, ih.2⟩⟩

theorem processPages_no_tmp (o : Oracle) (hasDir : Bool) :
    ∀ (pages : List DPage) (idx : Nat),
      MEvent.rmtreeE ∉ (processPages o hasDir pages idx).1 := by
  intro pages
  induction pages with
  | nil => intro idx; simp [processPages]
  | cons pg rest ih =>
    intro idx
    rw [processPages]
    have hext : MEvent.rmtreeE ∉ (if hasDir then [MEvent.extractRefsE pg.path] else []) := by
      split <;> simp
    have hup := (uploadPageRefs_no_tmp o
      (if hasDir then extract_attachment_references pg.content else [])).1
    rcases h2 : (uploadPageRefs o
        (if hasDir then extract_attachment_references pg.content else [])).2 with e | u
    · simp only [List.mem_append, not_or]
      exact ⟨hext, hup⟩
    · rcases h3 : o.createDoc idx with e | d
      · dsimp only
        simp only [List.mem_append, not_or]
        exact ⟨⟨hext, hup⟩, by simp⟩
      · dsimp only
        simp only [List.mem_append, not_or]
        exact ⟨⟨⟨hext, hup⟩, by simp⟩, ih (idx + 1)⟩

theorem migrateBody_no_tmp (o : Oracle) (export_ : DExport) (files : List FileInfo)
    (maxSize : Nat) (cid : Option String) :
    MEvent.rmtreeE ∉ (migrateBody o export_ files maxSize cid).1 := by
  rw [migrateBody.eq_def]
  dsimp only
  split
  · simp
  · split
    · split
      · simp
      · dsimp only
        simp only [List.mem_cons, not_or]
        exact ⟨by simp, processPages_no_tmp o _ _ _⟩
    · split
      · simp
      · dsimp only
        simp only [List.mem_cons, not_or]
        exact ⟨by simp, processPages_no_tmp o _ _ _⟩

/-- C7: on every exit path of the migration — parse failure, validation
failure, container-setup failure, mid-loop upload/document failure, or
success — the temporary extraction directory is released exactly once
(exactly one `rmtree` event, and it is the final event); and the cleanup
operation itself is idempotent and a no-op on a missing directory. -/
theorem c7_cleanup_exactly_once :
    (∀ (o : Oracle) (parseOutcome : Except MError DExport) (files : List FileInfo)
        (maxSize : Nat) (cid : Option String),
      (runMigration o parseOutcome files maxSize cid).1.count MEvent.rmtreeE = 1 ∧
      (runMigration o parseOutcome files maxSize cid).1.getLast? = some MEvent.rmtreeE)
    ∧ (∀ d : Bool, cleanupDir (cleanupDir d).1 = (false, false))
    ∧ cleanupDir false = (false, false) := by
  refine ⟨?_, ?_, by decide⟩
  · intro o parseOutcome files maxSize cid
    rcases parseOutcome with e | export_
    · exact ⟨rfl, rfl⟩
    · rw [runMigration]
      dsimp only
      have hno := migrateBody_no_tmp o export_ files maxSize cid
      constructor
      · simp [List.count_cons, List.count_append, List.count_eq_zero.mpr hno]
      · rw [List.getLast?_concat]
  · intro d
    rcases d with _ | _ <;> decide

def isExtract : MEvent → Bool
  | .extractRefsE _ => true
  | _ => false

theorem validate_all_attachments_ok (maxSize : Nat) :
    ∀ files : List FileInfo, (∀ f ∈ files, f.present = true ∧ f.size ≤ maxSize) →
      ∃ pr, validate_all_attachments files maxSize = .ok pr := by
  intro files
  induction files with
  | nil => intro _; exact ⟨(0, 0), rfl⟩
  | cons f rest ih =>
    intro hall
    obtain ⟨hp, hsz⟩ := hall f (List.mem_cons_self _ _)
    obtain ⟨pr, hpr⟩ := ih (fun x hx => hall x (List.mem_cons_of_mem _ hx))
    rw [validate_all_attachments]
    rw [if_neg (by simp [hp])]
    rw [validate_file_size, if_neg (by omega)]
    rw [hpr]
    exact ⟨(pr.1 + 1, pr.2 + f.size), rfl⟩

theorem uploadPageRefs_ok (o : Oracle) (hup : ∀ r, ∃ v, o.uploadRef r = .ok v) :
    ∀ refs : List String, (uploadPageRefs o refs).2 = .ok () ∧
      (uploadPageRefs o refs).1 = refs.map MEvent.uploadE := by
  intro refs
  induction refs with
  | nil => exact ⟨rfl, rfl⟩
  | cons ref rest ih =>
    obtain ⟨v, hv⟩ := hup ref
    rw [uploadPageRefs, hv]
    dsimp only
    exact ⟨ih.1, by rw [List.map_cons, ih.2]⟩

theorem processPages_extract_trace (o : Oracle)
    (hup : ∀ r, ∃ v, o.uploadRef r = .ok v)
    (hdoc : ∀ i, ∃ d, o.createDoc i = .ok d) :
    ∀ (pages : List DPage) (idx : Nat),
      (processPages o true pages idx).1.filter isExtract =
        pages.map (fun p => MEvent.extractRefsE p.path) := by
  intro pages
  induction pages with
  | nil => intro idx; rfl
  | cons pg rest ih =>
    intro idx
    rw [processPages]
    have h2 := uploadPageRefs_ok o hup (extract_attachment_references pg.content)
    obtain ⟨d, hd⟩ := hdoc idx
    simp only [if_true]
    rw [h2.1]
    dsimp only
    rw [hd]
    dsimp only
    rw [List.filter_append, List.filter_append, List.filter_append]
    rw [h2.2]
    have hupf : (List.map MEvent.uploadE
        (extract_attachment_references pg.content)).filter isExtract = [] := by
      rw [List.filter_map]
      have : (isExtract ∘ MEvent.uploadE) = fun _ => false := by
        funext r; rfl
      rw [this]
      simp
    rw [hupf]
    rw [ih (idx + 1)]
    simp [isExtract]

/-- C10: the parser always sets the attachment-pool root to the logical
root directory — it is never `none`, despite the `Optional` declaration —
so the orchestrator's guard on the pool root always passes and the
per-page reference-extraction step runs for every page, even for exports
with no `files` directory anywhere. -/
theorem c10_pool_root_always_set (z : ExtractedZip) (o : Oracle)
    (files : List FileInfo) (maxSize : Nat) (cid : Option String)
    (hval : ∀ f ∈ files, f.present = true ∧ f.size ≤ maxSize)
    (hget : ∀ c, ∃ x, o.getCollection c = .ok x)
    (hcreate : ∀ n, ∃ x, o.createCollection n = .ok x)
    (hup : ∀ r, ∃ v, o.uploadRef r = .ok v)
    (hdoc : ∀ i, ∃ d, o.createDoc i = .ok d) :
    (docmostParse z).attachments_dir = some (detectRoot z).1 ∧
    (docmostParse z).attachments_dir ≠ none ∧
    (runMigration o (.ok (docmostParse z)) files maxSize cid).1.filter isExtract =
      (docmostParse z).all_pages.map (fun p => MEvent.extractRefsE p.path) := by
  refine ⟨rfl, by simp [docmostParse], ?_⟩
  rw [runMigration]
  dsimp only
  have hsome : (docmostParse z).attachments_dir.isSome = true := rfl
  have hbody : (migrateBody o (docmostParse z) files maxSize cid).1.filter isExtract =
      (docmostParse z).all_pages.map (fun p => MEvent.extractRefsE p.path) := by
    rw [migrateBody.eq_def]
    dsimp only
    have hv : (if files.isEmpty then Except.ok (0, 0)
        else validate_all_attachments files maxSize) =
        .ok (if files.isEmpty then ((0 : Nat), (0 : Nat))
          else (validate_all_attachments files maxSize).toOption.getD (0, 0)) := by
      split
      · rfl
      · obtain ⟨pr, hpr⟩ := validate_all_attachments_ok maxSize files hval
        rw [hpr]
        rfl
    rw [hv]
    dsimp only
    rcases cid with _ | c
    · dsimp only
      obtain ⟨x, hx⟩ := hcreate (docmostParse z).space_name
      rw [hx]
      dsimp only
      rw [List.filter_cons]
      rw [hsome]
      rw [processPages_extract_trace o hup hdoc]
      simp [isExtract]
    · dsimp only
      obtain ⟨x, hx⟩ := hget c
      rw [hx]
      dsimp only
      rw [List.filter_cons]
      rw [hsome]
      rw [processPages_extract_trace o hup hdoc]
      simp [isExtract]
  rw [List.filter_append, List.filter_cons]
  rw [hbody]
  simp [isExtract]

/-- Witness for C10 at a concrete export with no `files` directory. -/
theorem c10_pool_root_always_set_witness :
    (docmostParse ⟨[], [], "space", [["a.md"]], fun _ => "body"⟩).attachments_dir =
      some (detectRoot ⟨[], [], "space", [["a.md"]], fun _ => "body"⟩).1 ∧
    (docmostParse ⟨[], [], "space", [["a.md"]], fun _ => "body"⟩).attachments_dir ≠ none ∧
    (runMigration ⟨fun _ => .ok "c", fun _ => .ok "c", fun _ => .ok ("u", 1),
        fun _ => .ok "d"⟩
      (.ok (docmostParse ⟨[], [], "space", [["a.md"]], fun _ => "body"⟩))
      [] 25 none).1.filter isExtract =
      (docmostParse ⟨[], [], "space", [["a.md"]], fun _ => "body"⟩).all_pages.map
        (fun p => MEvent.extractRefsE p.path) :=
  c10_pool_root_always_set ⟨[], [], "space", [["a.md"]], fun _ => "body"⟩
    ⟨fun _ => .ok "c", fun _ => .ok "c", fun _ => .ok ("u", 1), fun _ => .ok "d"⟩
    [] 25 none (by simp) (fun c => ⟨"c", rfl⟩) (fun n => ⟨"c", rfl⟩)
    (fun r => ⟨("u", 1), rfl⟩) (fun i => ⟨"d", rfl⟩)

/-! ### C6: general characterisation of reference extraction

A body is presented as a list of chunks: plain text and bracket
occurrences `!?[alt](target)`.  Under syntactic side conditions that make
the decomposition unambiguous (plain text contains no `[` and does not end
in a dangling `!`; alt texts contain no `]` or `[`; targets contain no `)`
or `[`), `extract_attachment_references` returns exactly the targets whose
shape is the attachment-pool pattern `files/...` with zero, one or two
leading slashes, in order, duplicates retained, slashes stripped. -/

inductive RefTok where
  | plain (t : List Char)
  | occ (bang : Bool) (alt : List Char) (target : List Char)
deriving DecidableEq

def RefTok.render : RefTok → List Char
  | .plain t => t
  | .occ bang alt tgt =>
      (if bang then ['!'] else []) ++ '[' :: (alt ++ ']' :: '(' :: (tgt ++ [')']))

def renderToks (toks : List RefTok) : List Char := (toks.map RefTok.render).join

def RefTok.wf : RefTok → Prop
  | .plain t => '[' ∉ t ∧ t.getLast? ≠ some '!'
  | .occ _ alt tgt => ']' ∉ alt ∧ '[' ∉ alt ∧ ')' ∉ tgt ∧ '[' ∉ tgt

instance : DecidablePred RefTok.wf := fun tok =>
  match tok with
  | .plain t => inferInstanceAs (Decidable ('[' ∉ t ∧ t.getLast? ≠ some '!'))
  | .occ _ alt tgt =>
      inferInstanceAs (Decidable (']' ∉ alt ∧ '[' ∉ alt ∧ ')' ∉ tgt ∧ '[' ∉ tgt))

/-- `files/` followed by a nonempty remainder. -/
def filesForm (w : List Char) : Bool :=
  match stripPre filesLit w with
  | some b => !b.isEmpty
  | none => false

def slash1Form : List Char → Bool
  | '/' :: w => filesForm w
  | _ => false

def slash2Form : List Char → Bool
  | '/' :: '/' :: w => filesForm w
  | _ => false

/-- The attachment-pool target pattern of the claim: `files/...`
optionally prefixed by one or two slashes. -/
def poolTarget (tgt : List Char) : Bool :=
  filesForm tgt || slash1Form tgt || slash2Form tgt

theorem stripPre_append_some {p s r : List Char} (h : stripPre p s = some r)
    (x : List Char) : stripPre p (s ++ x) = some (r ++ x) := by
  rw [stripPre_eq_append h, List.append_assoc]
  exact stripPre_self p (r ++ x)

theorem stripPre_extend_none {p w : List Char} {x : Char} {r : List Char}
    (hnone : stripPre p w = none) (hx : x ∉ p) :
    stripPre p (w ++ x :: r) = none := by
  induction p generalizing w with
  | nil => simp [stripPre] at hnone
  | cons c ps ih =>
    simp only [List.mem_cons, not_or] at hx
    match w with
    | [] =>
      simp [stripPre, Ne.symm hx.1]
    | d :: w' =>
      simp only [stripPre] at hnone ⊢
      split at hnone
      · rename_i hcd
        rw [if_pos hcd]
        exact ih hnone hx.2
      · rename_i hcd
        rw [if_neg hcd]

theorem filesBody_closed_some {w b : List Char} (rest : List Char) (hw : ')' ∉ w)
    (hb : stripPre filesLit w = some b) (hne : ¬ b.isEmpty) :
    filesBody (w ++ ')' :: rest) = some (b, rest) := by
  unfold filesBody
  rw [stripPre_append_some hb (')' :: rest)]
  have hbw : ')' ∉ b := by
    intro hmem
    exact hw (by rw [stripPre_eq_append hb]; exact List.mem_append_right _ hmem)
  dsimp only
  rw [takeUntil_exact ')' b rest hbw]
  simp only []
  rw [if_neg (by simpa using hne)]

theorem filesBody_closed_none {w : List Char} (rest : List Char) (hw : ')' ∉ w)
    (h : filesForm w = false) : filesBody (w ++ ')' :: rest) = none := by
  unfold filesForm at h
  unfold filesBody
  split at h
  · rename_i b hb
    rw [stripPre_append_some hb (')' :: rest)]
    simp at h
    subst h
    simp [takeUntil]
  · rename_i hb
    rw [stripPre_extend_none hb (by decide)]

theorem filesForm_eq_some {w : List Char} (h : filesForm w = true) :
    ∃ b, stripPre filesLit w = some b ∧ ¬ b.isEmpty ∧ w = filesLit ++ b := by
  unfold filesForm at h
  split at h
  · rename_i b hb
    exact ⟨b, hb, by simpa using h, stripPre_eq_append hb⟩
  · simp at h


theorem filesForm_slash (w : List Char) : filesForm ('/' :: w) = false := by
  simp [filesForm, filesLit, stripPre]

theorem filesBody_rparen (rest : List Char) : filesBody (')' :: rest) = none := by
  unfold filesBody
  rw [show stripPre filesLit (')' :: rest) = none by simp [filesLit, stripPre]]

theorem targetMatch_closed (tgt rest : List Char) (htgt : ')' ∉ tgt) :
    targetMatch (tgt ++ ')' :: rest) =
      if poolTarget tgt then some (tgt, rest) else none := by
  rcases tgt with _ | ⟨c1, tgt1⟩
  · rw [show poolTarget [] = false by decide, if_neg (by simp)]
    show targetMatch (')' :: rest) = none
    rw [targetMatch.eq_3 _ (by intro w h; simp at h)
      (by intro w h; simp at h)]
    rw [filesBody_rparen]
    rfl
  · simp only [List.mem_cons, not_or] at htgt
    by_cases h1 : c1 = '/'
    · subst h1
      rcases tgt1 with _ | ⟨c2, tgt2⟩
      · rw [show poolTarget ['/'] = false by decide, if_neg (by simp)]
        show targetMatch ('/' :: ')' :: rest) = none
        rw [targetMatch.eq_2 _ (by intro w h; simp at h)]
        rw [filesBody_rparen]
        rfl
      · simp only [List.mem_cons, not_or] at htgt
        by_cases h2 : c2 = '/'
        · subst h2
          show targetMatch ('/' :: '/' :: (tgt2 ++ ')' :: rest)) = _
          rw [targetMatch.eq_1]
          have hpool : poolTarget ('/' :: '/' :: tgt2) = filesForm tgt2 := by
            simp [poolTarget, filesForm_slash, slash1Form, slash2Form]
          rw [hpool]
          rcases hff : filesForm tgt2 with _ | _
          · rw [filesBody_closed_none rest htgt.2.2 hff]
            rw [if_neg (by simp)]
            rfl
          · obtain ⟨b, hb, hbne, hw⟩ := filesForm_eq_some hff
            rw [filesBody_closed_some rest htgt.2.2 hb hbne]
            rw [if_pos (by simp)]
            simp only [Option.map_some']
            rw [← hw]
        · show targetMatch ('/' :: ((c2 :: tgt2) ++ ')' :: rest)) = _
          rw [targetMatch.eq_2 _ (by
            intro w h
            rw [List.cons_append] at h
            injection h with h' _
            exact h2 h')]
          have hpool : poolTarget ('/' :: c2 :: tgt2) = filesForm (c2 :: tgt2) := by
            have hs2 : slash2Form ('/' :: c2 :: tgt2) = false := by
              rw [slash2Form.eq_def]
              split
              · rename_i heq
                injection heq with _ e2
                injection e2 with e2' _
                exact absurd e2' h2
              · rfl
            simp [poolTarget, filesForm_slash, slash1Form, hs2]
          rw [hpool]
          have hnotin : ')' ∉ c2 :: tgt2 := by
            simp only [List.mem_cons, not_or]
            exact ⟨htgt.2.1, htgt.2.2⟩
          rcases hff : filesForm (c2 :: tgt2) with _ | _
          · rw [filesBody_closed_none rest hnotin hff]
            rw [if_neg (by simp)]
            rfl
          · obtain ⟨b, hb, hbne, hw⟩ := filesForm_eq_some hff
            rw [filesBody_closed_some rest hnotin hb hbne]
            rw [if_pos (by simp)]
            simp only [Option.map_some']
            rw [← hw]
    · show targetMatch ((c1 :: tgt1) ++ ')' :: rest) = _
      rw [targetMatch.eq_3 _ (by
          intro w h
          rw [List.cons_append] at h
          injection h with h' _
          exact h1 h')
        (by
          intro w h
          rw [List.cons_append] at h
          injection h with h' _
          exact h1 h')]
      have hpool : poolTarget (c1 :: tgt1) = filesForm (c1 :: tgt1) := by
        have hs1 : slash1Form (c1 :: tgt1) = false := by
          rw [slash1Form.eq_def]
          split
          · rename_i heq
            injection heq with e1 _
            exact absurd e1 h1
          · rfl
        have hs2 : slash2Form (c1 :: tgt1) = false := by
          rw [slash2Form.eq_def]
          split
          · rename_i heq
            injection heq with e1 _
            exact absurd e1 h1
          · rfl
        simp [poolTarget, hs1, hs2]
      rw [hpool]
      have hnotin : ')' ∉ c1 :: tgt1 := by
        simp only [List.mem_cons, not_or]
        exact ⟨htgt.1, htgt.2⟩
      rcases hff : filesForm (c1 :: tgt1) with _ | _
      · rw [filesBody_closed_none rest hnotin hff]
        rw [if_neg (by simp)]
        rfl
      · obtain ⟨b, hb, hbne, hw⟩ := filesForm_eq_some hff
        rw [filesBody_closed_some rest hnotin hb hbne]
        rw [if_pos (by simp)]
        simp only [Option.map_some']
        rw [← hw]

theorem bracketTarget_nomatch {s : List Char} (h : s.head? ≠ some '[') :
    bracketTarget s = none := by
  rw [bracketTarget.eq_def]
  split
  · rename_i t
    simp at h
  · rfl

theorem render_occ_append (bang : Bool) (alt tgt rest : List Char) :
    (RefTok.occ bang alt tgt).render ++ rest =
      (if bang then ['!'] else []) ++ '[' :: (alt ++ ']' :: '(' :: (tgt ++ ')' :: rest)) := by
  simp [RefTok.render, List.append_assoc]

/-- On a well-formed occurrence, the extraction matcher fires exactly on
pool-shaped targets, consuming the whole occurrence. -/
theorem tryMatchRef_occ (bang : Bool) (alt tgt rest : List Char)
    (halt : ']' ∉ alt) (htgt : ')' ∉ tgt) :
    tryMatchRef ((RefTok.occ bang alt tgt).render ++ rest) =
      if poolTarget tgt then some (tgt, rest) else none := by
  have hbracket : bracketTarget ('[' :: (alt ++ ']' :: '(' :: (tgt ++ ')' :: rest))) =
      if poolTarget tgt then some (tgt, rest) else none := by
    rw [bracketTarget.eq_1]
    rw [takeUntil_exact ']' alt ('(' :: (tgt ++ ')' :: rest)) halt]
    dsimp only
    split
    · rename_i v heq
      injection heq with _ e1
      injection e1 with _ e2
      rw [← e2]
      exact targetMatch_closed tgt rest htgt
    · rename_i hne
      exact absurd rfl (hne (tgt ++ ')' :: rest))
  rw [render_occ_append]
  rcases bang with _ | _
  · show tryMatchRef ('[' :: (alt ++ ']' :: '(' :: (tgt ++ ')' :: rest))) = _
    rw [tryMatchRef.eq_def]
    split
    · rename_i t heq
      injection heq with e1 _
      exact absurd e1 (by decide)
    · exact hbracket
  · show tryMatchRef ('!' :: '[' :: (alt ++ ']' :: '(' :: (tgt ++ ')' :: rest))) = _
    rw [tryMatchRef.eq_def]
    split
    · rename_i t heq
      injection heq with _ e2
      rw [← e2]
      exact hbracket
    · rename_i hne
      exact absurd rfl (hne ('[' :: (alt ++ ']' :: '(' :: (tgt ++ ')' :: rest))))

theorem extractScan_nil : extractScan [] = [] := by
  rw [← extractScanF_eq 0 [] (by simp)]
  rfl

theorem extractScan_cons_nomatch {c : Char} {t : List Char}
    (h : tryMatchRef (c :: t) = none) : extractScan (c :: t) = extractScan t := by
  rw [extractScan]
  split
  · rename_i pr htry
    rw [h] at htry
    simp at htry
  · rfl

theorem extractScan_match {s tgt rest : List Char}
    (h : tryMatchRef s = some (tgt, rest)) :
    extractScan s = tgt :: extractScan rest := by
  rw [extractScan]
  split
  · rename_i pr htry
    rw [h] at htry
    injection htry with e
    rw [← e]
  · rename_i htry
    rw [h] at htry
    simp at htry

/-- Scanning skips over a segment that contains no `[` and does not end
with a `!` immediately followed by a `[`. -/
theorem extractScan_skip (u : List Char) (rest : List Char) (hu : '[' ∉ u)
    (hb : u.getLast? = some '!' → rest.head? ≠ some '[') :
    extractScan (u ++ rest) = extractScan rest := by
  induction u with
  | nil => simp
  | cons c u' ih =>
    simp only [List.mem_cons, not_or] at hu
    have hnomatch : tryMatchRef (c :: (u' ++ rest)) = none := by
      rw [tryMatchRef.eq_def]
      split
      · rename_i t heq
        injection heq with e1 e2
        apply bracketTarget_nomatch
        rw [← e2]
        match u', hu.2 with
        | [], _ =>
          have : c = '!' := e1
          have := hb (by simp [this])
          simpa using this
        | d :: u'', hu2 =>
          simp only [List.mem_cons, not_or] at hu2
          simp [Ne.symm hu2.1]
      · apply bracketTarget_nomatch
        simp [Ne.symm hu.1]
    rw [List.cons_append, extractScan_cons_nomatch hnomatch]
    apply ih hu.2
    intro hlast
    apply hb
    match u', hlast with
    | d :: u'', hlast => rw [List.getLast?_cons_cons]; exact hlast

/-- The general extraction characterisation over a chunk decomposition:
`extractScan` returns exactly the pool-shaped targets of the occurrences,
in order, duplicates retained. -/
theorem extractScan_chunks :
    ∀ toks : List RefTok, (∀ tok ∈ toks, tok.wf) →
      extractScan (renderToks toks) =
        toks.filterMap (fun tok =>
          match tok with
          | .occ _ _ tgt => if poolTarget tgt then some tgt else none
          | .plain _ => none) := by
  intro toks
  induction toks with
  | nil => intro _; simpa [renderToks] using extractScan_nil
  | cons tok toks' ih =>
    intro hwf
    have hwtok := hwf tok (List.mem_cons_self _ _)
    have hrest := ih (fun t ht => hwf t (List.mem_cons_of_mem _ ht))
    have hrender : renderToks (tok :: toks') = tok.render ++ renderToks toks' := by
      simp [renderToks]
    rw [hrender]
    rcases tok with t | ⟨bang, alt, tgt⟩
    · obtain ⟨h1, h2⟩ := hwtok
      rw [show (RefTok.plain t).render = t from rfl]
      rw [extractScan_skip t _ h1 (fun hl => absurd hl h2), hrest]
      rfl
    · obtain ⟨h1, h2, h3, h4⟩ := hwtok
      rcases hpool : poolTarget tgt with _ | _
      · -- non-pool target: the matcher fails and the scanner walks through
        have hocc0 := tryMatchRef_occ bang alt tgt (renderToks toks') h1 h3
        rw [hpool, if_neg (by simp)] at hocc0
        have hskip : extractScan (alt ++ ']' :: '(' :: (tgt ++ ')' :: renderToks toks')) =
            extractScan (renderToks toks') := by
          have hform : alt ++ ']' :: '(' :: (tgt ++ ')' :: renderToks toks') =
              ((alt ++ ']' :: '(' :: tgt) ++ [')']) ++ renderToks toks' := by
            simp [List.append_assoc]
          rw [hform]
          apply extractScan_skip
          · have hchars : ∀ x ∈ ((alt ++ ']' :: '(' :: tgt) ++ [')']), x ≠ '[' := by
              intro x hx
              simp only [List.mem_append, List.mem_cons, List.mem_singleton,
                List.not_mem_nil, or_false] at hx
              rcases hx with (hx | hx | hx) | hx
              · exact fun he => h2 (he ▸ hx)
              · subst hx; decide
              · rcases hx with hx | hx
                · subst hx; decide
                · exact fun he => h4 (he ▸ hx)
              · subst hx; decide
            intro hmem
            exact hchars '[' hmem rfl
          · rw [List.getLast?_concat]
            intro h
            simp at h
        rcases bang with _ | _
        · have hstep : extractScan ((RefTok.occ false alt tgt).render ++ renderToks toks') =
              extractScan (alt ++ ']' :: '(' :: (tgt ++ ')' :: renderToks toks')) := by
            rw [render_occ_append]
            show extractScan ('[' :: (alt ++ ']' :: '(' :: (tgt ++ ')' :: renderToks toks'))) = _
            apply extractScan_cons_nomatch
            have := tryMatchRef_occ false alt tgt (renderToks toks') h1 h3
            rw [hpool, if_neg (by simp)] at this
            rw [render_occ_append] at this
            exact this
          rw [hstep, hskip, hrest]
          simp [List.filterMap_cons, hpool]
        · have hocc1 := tryMatchRef_occ false alt tgt (renderToks toks') h1 h3
          rw [hpool, if_neg (by simp)] at hocc1
          rw [render_occ_append] at hocc1
          have hstep : extractScan ((RefTok.occ true alt tgt).render ++ renderToks toks') =
              extractScan ('[' :: (alt ++ ']' :: '(' :: (tgt ++ ')' :: renderToks toks'))) := by
            rw [render_occ_append]
            show extractScan ('!' :: '[' :: (alt ++ ']' :: '(' :: (tgt ++ ')' :: renderToks toks'))) = _
            apply extractScan_cons_nomatch
            have := tryMatchRef_occ true alt tgt (renderToks toks') h1 h3
            rw [hpool, if_neg (by simp)] at this
            rw [render_occ_append] at this
            exact this
          rw [hstep]
          rw [show ('[' :: (alt ++ ']' :: '(' :: (tgt ++ ')' :: renderToks toks'))) =
            (RefTok.occ false alt tgt).render ++ renderToks toks' from
              (render_occ_append false alt tgt (renderToks toks')).symm]
          have hstep2 : extractScan ((RefTok.occ false alt tgt).render ++ renderToks toks') =
              extractScan (alt ++ ']' :: '(' :: (tgt ++ ')' :: renderToks toks')) := by
            rw [render_occ_append]
            show extractScan ('[' :: (alt ++ ']' :: '(' :: (tgt ++ ')' :: renderToks toks'))) = _
            apply extractScan_cons_nomatch
            exact hocc1
          rw [hstep2, hskip, hrest]
          simp [List.filterMap_cons, hpool]
      · -- pool target: the matcher consumes the occurrence
        have hocc := tryMatchRef_occ bang alt tgt (renderToks toks') h1 h3
        rw [hpool, if_pos (by simp)] at hocc
        rw [extractScan_match hocc, hrest]
        simp [List.filterMap_cons, hpool]

/-- C6: `extract_attachment_references` returns, in order with duplicates
retained, the target of every image/link occurrence whose target matches
the pool pattern `files/...` with up to two optional leading slashes,
leading slashes stripped.  Stated over any chunk decomposition of the
body. -/
theorem c6_extract_references (toks : List RefTok) (hwf : ∀ tok ∈ toks, tok.wf) :
    extract_attachment_references (renderToks toks).asString =
      toks.filterMap (fun tok =>
        match tok with
        | .occ _ _ tgt =>
            if poolTarget tgt then some ((tgt.dropWhile (fun c => c = '/')).asString)
            else none
        | .plain _ => none) := by
  rw [extract_attachment_references]
  rw [show ((renderToks toks).asString).toList = renderToks toks from rfl]
  rw [extractScan_chunks toks hwf]
  rw [List.map_filterMap]
  congr 1
  funext tok
  rcases tok with t | ⟨bang, alt, tgt⟩
  · rfl
  · dsimp only
    split <;> rfl

/-- Witness for C6: the spec's two examples, obtained by instantiating
`c6_extract_references` at singleton decompositions, plus the same facts
computed directly on the string inputs. -/
theorem c6_extract_references_witness :
    (extract_attachment_references
        (renderToks [RefTok.occ true "x".toList "files/abc/img.png".toList]).asString =
      ["files/abc/img.png"]) ∧
    (extract_attachment_references
        (renderToks [RefTok.occ true "x".toList "/files/abc/img.png".toList]).asString =
      ["files/abc/img.png"]) ∧
    extract_attachment_references "![x](files/abc/img.png)" = ["files/abc/img.png"] ∧
    extract_attachment_references "![x](/files/abc/img.png)" = ["files/abc/img.png"] := by
  refine ⟨?_, ?_, ?_, ?_⟩
  · rw [c6_extract_references [RefTok.occ true "x".toList "files/abc/img.png".toList]
      (by intro tok htok; simp at htok; subst htok; refine ⟨?_, ?_, ?_, ?_⟩ <;> decide)]
    rfl
  · rw [c6_extract_references [RefTok.occ true "x".toList "/files/abc/img.png".toList]
      (by intro tok htok; simp at htok; subst htok; refine ⟨?_, ?_, ?_, ?_⟩ <;> decide)]
    rfl
  · rw [extract_attachment_references_eval]
    rfl
  · rw [extract_attachment_references_eval]
    rfl

/-! ### C9: general characterisation of the details-to-headings rewrite -/

theorem char_toNat_ofNat {m : Nat} (h : m < 55296) : (Char.ofNat m).toNat = m := by
  unfold Char.ofNat
  rw [dif_pos (Or.inl h)]
  unfold Char.ofNatAux Char.toNat
  simp [UInt32.toNat, BitVec.toNat_ofNatLt]

/-- `toLower` maps only uppercase letters, so equality with `'<'` is
case-blind. -/
theorem toLower_eq_lt_iff (c : Char) : c.toLower = '<' ↔ c = '<' := by
  constructor
  · intro h
    by_cases hc : c.toNat ≥ 65 ∧ c.toNat ≤ 90
    · exfalso
      simp only [Char.toLower] at h
      rw [if_pos hc] at h
      have := congrArg Char.toNat h
      rw [char_toNat_ofNat (by omega)] at this
      rw [show ('<' : Char).toNat = 60 from rfl] at this
      omega
    · simp only [Char.toLower] at h
      rw [if_neg hc] at h
      exact h
  · intro h
    subst h
    rfl

theorem stripCIPre_self (p : List Char) : ∀ r, stripCIPre p (p ++ r) = some r := by
  induction p with
  | nil => intro r; rfl
  | cons c t ih => intro r; simp [stripCIPre, ih]

theorem dropWhile_append_cons_notP (p : Char → Bool) (x : Char) (hx : p x = false) :
    ∀ (bo X : List Char), (bo ++ x :: X).dropWhile p = bo.dropWhile p ++ x :: X := by
  intro bo
  induction bo with
  | nil => intro X; simp [List.dropWhile, hx]
  | cons c b' ih =>
    intro X
    rcases hc : p c with _ | _
    · simp [List.dropWhile, hc]
    · simp only [List.cons_append, List.dropWhile, hc]
      exact ih X

theorem dropWhile_idem_list (p : Char → Bool) (l : List Char) :
    (l.dropWhile p).dropWhile p = l.dropWhile p := by
  induction l with
  | nil => rfl
  | cons c t ih =>
    rcases hc : p c with _ | _
    · simp [List.dropWhile, hc]
    · simp [List.dropWhile, hc, ih]

theorem pyStrip_dropWhile (l : List Char) :
    pyStrip (l.dropWhile pyIsSpace) = pyStrip l := by
  unfold pyStrip
  rw [dropWhile_idem_list]

theorem findCISub_skip_to {pat : List Char} {p0 : Char} {pat' : List Char}
    (hpat : pat = p0 :: pat') (hp0 : p0 = '<') :
    ∀ (body X r : List Char), '<' ∉ body → stripCIPre pat X = some r →
      findCISub pat (body ++ X) = some (body, r) := by
  intro body
  induction body with
  | nil =>
    intro X r _ hX
    rw [List.nil_append]
    match X, hX with
    | [], hX =>
      rw [findCISub, hX]
      rfl
    | c :: X', hX =>
      rw [findCISub, hX]
  | cons c b' ih =>
    intro X r hmem hX
    simp only [List.mem_cons, not_or] at hmem
    rw [List.cons_append, findCISub]
    have hfail : stripCIPre pat (c :: (b' ++ X)) = none := by
      rw [hpat, stripCIPre]
      rw [if_neg]
      intro hcontra
      rw [hp0] at hcontra
      have : c = '<' := (toLower_eq_lt_iff c).mp hcontra.symm
      exact hmem.1 this.symm
    rw [hfail]
    rw [ih X r hmem.2 hX]
    rfl

inductive DetTok where
  | plain (t : List Char)
  | block (title body : List Char)
deriving DecidableEq

def DetTok.render : DetTok → List Char
  | .plain t => t
  | .block ti bo =>
      "<details><summary>".toList ++ ti ++ "</summary>".toList ++ bo ++
        "</details>".toList

def renderDetToks (toks : List DetTok) : List Char := (toks.map DetTok.render).join

def DetTok.wf : DetTok → Prop
  | .plain t => '<' ∉ t
  | .block ti bo => ti ≠ [] ∧ '<' ∉ ti ∧ '<' ∉ bo

instance : DecidablePred DetTok.wf := fun tok =>
  match tok with
  | .plain t => inferInstanceAs (Decidable ('<' ∉ t))
  | .block ti bo => inferInstanceAs (Decidable (ti ≠ [] ∧ '<' ∉ ti ∧ '<' ∉ bo))

theorem tryMatchDetails_nomatch {c : Char} {s : List Char} (hc : c ≠ '<') :
    tryMatchDetails (c :: s) = none := by
  rw [tryMatchDetails.eq_def]
  have hfail : stripCIPre "<details>".toList (c :: s) = none := by
    show stripCIPre ('<' :: "details>".toList) (c :: s) = none
    rw [stripCIPre]
    rw [if_neg]
    intro hcontra
    exact hc ((toLower_eq_lt_iff c).mp hcontra.symm)
  rw [hfail]

/-- On a well-formed block, the details matcher consumes the whole block
and captures the title and the body with leading whitespace absorbed by
the regex's `\s*`. -/
theorem tryMatchDetails_block (ti bo rest : List Char)
    (hti : ti ≠ []) (hti2 : '<' ∉ ti) (hbo : '<' ∉ bo) :
    tryMatchDetails ((DetTok.block ti bo).render ++ rest) =
      some (ti, bo.dropWhile pyIsSpace, rest) := by
  have hform : (DetTok.block ti bo).render ++ rest =
      "<details>".toList ++ ("<summary>".toList ++
        (ti ++ ('<' :: ("/summary>".toList ++ (bo ++ ('<' :: ("/details>".toList ++ rest))))))) := by
    show "<details><summary>".toList ++ ti ++ "</summary>".toList ++ bo ++
        "</details>".toList ++ rest = _
    simp [List.append_assoc]
  rw [hform, tryMatchDetails.eq_def]
  rw [stripCIPre_self]
  dsimp only
  rw [show ("<summary>".toList ++
      (ti ++ ('<' :: ("/summary>".toList ++ (bo ++ ('<' :: ("/details>".toList ++ rest))))))).dropWhile
        pyIsSpace =
      "<summary>".toList ++
        (ti ++ ('<' :: ("/summary>".toList ++ (bo ++ ('<' :: ("/details>".toList ++ rest))))))
    from List.dropWhile_cons_of_neg (by decide)]
  rw [stripCIPre_self]
  dsimp only
  rw [takeUntil_exact '<' ti _ hti2]
  dsimp only
  rw [if_neg (by simpa using hti)]
  rw [show ('<' :: ("/summary>".toList ++ (bo ++ ('<' :: ("/details>".toList ++ rest))))) =
    "</summary>".toList ++ (bo ++ ('<' :: ("/details>".toList ++ rest))) from rfl]
  rw [stripCIPre_self]
  dsimp only
  rw [dropWhile_append_cons_notP pyIsSpace '<' (by decide) bo]
  rw [show (bo.dropWhile pyIsSpace ++ '<' :: ("/details>".toList ++ rest)) =
    (bo.dropWhile pyIsSpace ++ ("</details>".toList ++ rest)) from rfl]
  have hbody : '<' ∉ bo.dropWhile pyIsSpace := by
    intro hmem
    exact hbo ((List.dropWhile_sublist _).mem hmem)
  rw [@findCISub_skip_to "</details>".toList '<' "/details>".toList rfl rfl (bo.dropWhile pyIsSpace)
    ("</details>".toList ++ rest) rest hbody (stripCIPre_self _ rest)]

theorem detailsScan_nil : detailsScan [] = [] := by
  rw [← detailsScanF_eq 0 [] (by simp)]
  rfl

theorem detailsScan_cons_nomatch {c : Char} {t : List Char}
    (h : tryMatchDetails (c :: t) = none) : detailsScan (c :: t) = c :: detailsScan t := by
  rw [detailsScan]
  split
  · rename_i r htry
    rw [h] at htry
    simp at htry
  · rfl

theorem detailsScan_match {s ti bo rest : List Char}
    (h : tryMatchDetails s = some (ti, bo, rest)) :
    detailsScan s =
      '#' :: '#' :: '#' :: ' ' :: pyStrip ti ++ '\n' :: '\n' :: pyStrip bo ++
        detailsScan rest := by
  rw [detailsScan]
  split
  · rename_i r htry
    rw [h] at htry
    injection htry with e
    rw [← e]
  · rename_i htry
    rw [h] at htry
    simp at htry

theorem detailsScan_skip (u : List Char) (rest : List Char) (hu : '<' ∉ u) :
    detailsScan (u ++ rest) = u ++ detailsScan rest := by
  induction u with
  | nil => simp
  | cons c u' ih =>
    simp only [List.mem_cons, not_or] at hu
    rw [List.cons_append,
      detailsScan_cons_nomatch (tryMatchDetails_nomatch (fun h => hu.1 h.symm))]
    rw [ih hu.2]
    rfl

/-- The general details-rewrite characterisation over a chunk
decomposition: every block becomes `### `, the trimmed title, a blank
line and the trimmed body; plain text is untouched. -/
theorem detailsScan_chunks :
    ∀ toks : List DetTok, (∀ tok ∈ toks, tok.wf) →
      detailsScan (renderDetToks toks) =
        (toks.map (fun tok =>
          match tok with
          | .plain t => t
          | .block ti bo =>
              '#' :: '#' :: '#' :: ' ' :: pyStrip ti ++ '\n' :: '\n' :: pyStrip bo)).join := by
  intro toks
  induction toks with
  | nil => intro _; simpa [renderDetToks] using detailsScan_nil
  | cons tok toks' ih =>
    intro hwf
    have hwtok := hwf tok (List.mem_cons_self _ _)
    have hrest := ih (fun t ht => hwf t (List.mem_cons_of_mem _ ht))
    have hrender : renderDetToks (tok :: toks') = tok.render ++ renderDetToks toks' := by
      simp [renderDetToks]
    rw [hrender]
    rcases tok with t | ⟨ti, bo⟩
    · have h1 : '<' ∉ t := hwtok
      rw [show (DetTok.plain t).render = t from rfl]
      rw [detailsScan_skip t _ h1, hrest]
      simp
    · obtain ⟨h1, h2, h3⟩ := hwtok
      rw [detailsScan_match (tryMatchDetails_block ti bo (renderDetToks toks') h1 h2 h3)]
      rw [hrest]
      rw [pyStrip_dropWhile]
      simp [List.append_assoc]

/-- C9 (counterexample): the claim's literal reading — `### TITLE`, blank
line, then BODY unchanged — fails: the code trims TITLE and BODY with
`.strip()`.  On `<details><summary>T</summary>x </details>` the code
produces `### T\n\nx`, not `### T\n\nx `. -/
theorem c9_counterexample :
    convert_details_to_headings "<details><summary>T</summary>x </details>" =
      "### T\n\nx" ∧
    ("### T\n\nx" : String) ≠ "### T\n\nx " := by
  constructor
  · rw [convert_details_to_headings_eval]
    rfl
  · decide

/-- C9 (amended): every block `<details><summary>TITLE</summary>BODY</details>`
whose TITLE is nonempty and contains no `<` and whose BODY contains no `<`
is converted to `### ` + trim(TITLE) + blank line + trim(BODY) (tags
matched case-insensitively, BODY may span lines, whitespace between the
tags is absorbed); surrounding text without `<` is left untouched. -/
theorem c9_details_to_headings (toks : List DetTok) (hwf : ∀ tok ∈ toks, tok.wf) :
    convert_details_to_headings (renderDetToks toks).asString =
      ((toks.map (fun tok =>
        match tok with
        | .plain t => t
        | .block ti bo =>
            '#' :: '#' :: '#' :: ' ' :: pyStrip ti ++ '\n' :: '\n' :: pyStrip bo)).join).asString := by
  rw [convert_details_to_headings]
  rw [show ((renderDetToks toks).asString).toList = renderDetToks toks from rfl]
  rw [detailsScan_chunks toks hwf]

/-- Witness for C9's amended statement: the spec's example block, both via
the chunk theorem and computed directly on the string. -/
theorem c9_details_to_headings_witness :
    convert_details_to_headings
        (renderDetToks [DetTok.block "Notes".toList "\nhello\n".toList]).asString =
      ((([DetTok.block "Notes".toList "\nhello\n".toList]).map (fun tok =>
        match tok with
        | DetTok.plain t => t
        | DetTok.block ti bo =>
            '#' :: '#' :: '#' :: ' ' :: pyStrip ti ++ '\n' :: '\n' :: pyStrip bo)).join).asString ∧
    convert_details_to_headings "<details><summary>Notes</summary>\nhello\n</details>" =
      "### Notes\n\nhello" := by
  constructor
  · exact c9_details_to_headings [DetTok.block "Notes".toList "\nhello\n".toList]
      (by intro tok htok; simp at htok; subst htok; refine ⟨?_, ?_, ?_⟩ <;> decide)
  · rw [convert_details_to_headings_eval]
    rfl

/-! ### C5: general characterisation of the URL rewrite

A body is decomposed into plain text, pending image occurrences
`![alt](SPELLING)`, and pending link occurrences `[text](SPELLING)`,
where SPELLING is the mapping key `path` with 0, 1 or 2 leading slashes;
`rimg`/`rlnk` represent occurrences already rewritten by an earlier pass.
The six `re.sub` passes of `replace_attachment_urls` (image then link
substitution for each of the three spellings, in source order) turn every
pending occurrence into its rewritten form and touch nothing else. -/

def slashes : Nat → List Char
  | 0 => []
  | 1 => ['/']
  | _ => ['/', '/']

inductive UTokX where
  | plain (t : List Char)
  | img (alt : List Char) (sp : Nat)
  | lnk (text : List Char) (sp : Nat)
  | rimg (alt : List Char)
  | rlnk (text : List Char)
deriving DecidableEq

def UTokX.render (path url : List Char) (size : Nat) : UTokX → List Char
  | .plain t => t
  | .img a sp => '!' :: '[' :: (a ++ ']' :: '(' :: ((slashes sp ++ path) ++ [')']))
  | .lnk a sp => '[' :: (a ++ ']' :: '(' :: ((slashes sp ++ path) ++ [')']))
  | .rimg a => '!' :: '[' :: (a ++ ']' :: '(' :: (url ++ [')']))
  | .rlnk a => linkReplacement a url size

def renderU (path url : List Char) (size : Nat) (toks : List UTokX) : List Char :=
  (toks.map (UTokX.render path url size)).join

def UTokX.wf : UTokX → Prop
  | .plain t => '[' ∉ t ∧ t.getLast? ≠ some '!'
  | .img a sp => ']' ∉ a ∧ '[' ∉ a ∧ sp ≤ 2
  | .lnk a sp => ']' ∉ a ∧ '[' ∉ a ∧ sp ≤ 2
  | .rimg a => ']' ∉ a ∧ '[' ∉ a
  | .rlnk a => ']' ∉ a ∧ '[' ∉ a

instance : DecidablePred UTokX.wf := fun tok =>
  match tok with
  | .plain t => inferInstanceAs (Decidable ('[' ∉ t ∧ t.getLast? ≠ some '!'))
  | .img a sp => inferInstanceAs (Decidable (']' ∉ a ∧ '[' ∉ a ∧ sp ≤ 2))
  | .lnk a sp => inferInstanceAs (Decidable (']' ∉ a ∧ '[' ∉ a ∧ sp ≤ 2))
  | .rimg a => inferInstanceAs (Decidable (']' ∉ a ∧ '[' ∉ a))
  | .rlnk a => inferInstanceAs (Decidable (']' ∉ a ∧ '[' ∉ a))

/-- A token of the original body (no already-rewritten occurrences). -/
def UTokX.pending : UTokX → Prop
  | .rimg _ => False
  | .rlnk _ => False
  | _ => True

instance : DecidablePred UTokX.pending := fun tok =>
  match tok with
  | .plain _ => inferInstanceAs (Decidable True)
  | .img _ _ => inferInstanceAs (Decidable True)
  | .lnk _ _ => inferInstanceAs (Decidable True)
  | .rimg _ => inferInstanceAs (Decidable False)
  | .rlnk _ => inferInstanceAs (Decidable False)

def imgPassTok (sp : Nat) : UTokX → UTokX
  | .img a sp' => if sp' = sp then .rimg a else .img a sp'
  | tok => tok

def lnkPassTok (sp : Nat) : UTokX → UTokX
  | .lnk a sp' => if sp' = sp then .rlnk a else .lnk a sp'
  | tok => tok

/-- What every pending token becomes after all six passes. -/
def finalTok : UTokX → UTokX
  | .img a _ => .rimg a
  | .lnk a _ => .rlnk a
  | tok => tok

theorem slashes_length (sp : Nat) (h : sp ≤ 2) : (slashes sp).length = sp := by
  interval_cases sp <;> rfl

theorem slashes_ne {sp sp' : Nat} (hsp : sp ≤ 2) (hsp' : sp' ≤ 2) (hne : sp ≠ sp')
    (path : List Char) : slashes sp ++ path ≠ slashes sp' ++ path := by
  intro heq
  have hlen := congrArg List.length heq
  simp only [List.length_append, slashes_length sp hsp, slashes_length sp' hsp'] at hlen
  omega

theorem rparen_not_mem_slashes (sp : Nat) : ')' ∉ slashes sp := by
  match sp with
  | 0 => show ')' ∉ ([] : List Char); simp
  | 1 => show ')' ∉ ['/']; decide
  | n + 2 => show ')' ∉ ['/', '/']; decide

theorem lbracket_not_mem_slashes (sp : Nat) : '[' ∉ slashes sp := by
  match sp with
  | 0 => show '[' ∉ ([] : List Char); simp
  | 1 => show '[' ∉ ['/']; decide
  | n + 2 => show '[' ∉ ['/', '/']; decide

/-! #### Matcher facts for the substitution patterns -/

theorem tryMatchImage_not_bang {lit : List Char} {c : Char} {s : List Char}
    (h : c ≠ '!') : tryMatchImage lit (c :: s) = none := by
  rw [tryMatchImage.eq_def]
  split
  · rename_i t heq
    injection heq with e1 _
    exact absurd e1 h
  · rfl

theorem tryMatchImage_bang_not_bracket {lit : List Char} {s : List Char}
    (h : s.head? ≠ some '[') : tryMatchImage lit ('!' :: s) = none := by
  rw [tryMatchImage.eq_def]
  split
  · rename_i t heq
    injection heq with _ e2
    rw [e2] at h
    simp at h
  · rfl

theorem tryMatchImage_bracket_fail {lit a w rest : List Char} (ha : ']' ∉ a)
    (hfail : stripPre (lit ++ [')']) (w ++ ')' :: rest) = none) :
    tryMatchImage lit ('!' :: '[' :: (a ++ ']' :: '(' :: (w ++ ')' :: rest))) = none := by
  rw [tryMatchImage.eq_def]
  split
  · rename_i t heq
    injection heq with _ e2
    injection e2 with _ e3
    rw [← e3]
    dsimp only
    rw [takeUntil_exact ']' a _ ha]
    dsimp only
    split
    · rename_i v heq2
      injection heq2 with _ e4
      injection e4 with _ e5
      rw [← e5, hfail]
    · rename_i hne2
      exact absurd rfl (hne2 (w ++ ')' :: rest))
  · rename_i hne
    exact absurd rfl (hne (a ++ ']' :: '(' :: (w ++ ')' :: rest)))

theorem tryMatchImage_success {lit a rest : List Char} (ha : ']' ∉ a) :
    tryMatchImage lit ('!' :: '[' :: (a ++ ']' :: '(' :: (lit ++ ')' :: rest))) =
      some (a, rest) := by
  rw [tryMatchImage.eq_def]
  split
  · rename_i t heq
    injection heq with _ e2
    injection e2 with _ e3
    rw [← e3]
    dsimp only
    rw [takeUntil_exact ']' a _ ha]
    dsimp only
    split
    · rename_i v heq2
      injection heq2 with _ e4
      injection e4 with _ e5
      rw [← e5]
      rw [show (lit ++ ')' :: rest) = (lit ++ [')']) ++ rest by simp]
      rw [stripPre_self]
    · rename_i hne2
      exact absurd rfl (hne2 (lit ++ ')' :: rest))
  · rename_i hne
    exact absurd rfl (hne (a ++ ']' :: '(' :: (lit ++ ')' :: rest)))

theorem tryMatchLink_not_bracket {lit : List Char} {c : Char} {s : List Char}
    (h : c ≠ '[') : tryMatchLink lit (c :: s) = none := by
  rw [tryMatchLink.eq_def]
  split
  · rename_i t heq
    injection heq with e1 _
    exact absurd e1 h
  · rfl

theorem tryMatchLink_bracket_fail {lit a w rest : List Char} (ha : ']' ∉ a)
    (hfail : stripPre (lit ++ [')']) (w ++ ')' :: rest) = none) :
    tryMatchLink lit ('[' :: (a ++ ']' :: '(' :: (w ++ ')' :: rest))) = none := by
  rw [tryMatchLink.eq_def]
  split
  · rename_i t heq
    injection heq with _ e2
    rw [← e2]
    dsimp only
    rw [takeUntil_exact ']' a _ ha]
    dsimp only
    split
    · rename_i v heq2
      injection heq2 with _ e4
      injection e4 with _ e5
      rw [← e5, hfail]
    · rename_i hne2
      exact absurd rfl (hne2 (w ++ ')' :: rest))
  · rename_i hne
    exact absurd rfl (hne (a ++ ']' :: '(' :: (w ++ ')' :: rest)))

theorem tryMatchLink_success {lit a rest : List Char} (ha : ']' ∉ a) :
    tryMatchLink lit ('[' :: (a ++ ']' :: '(' :: (lit ++ ')' :: rest))) =
      some (a, rest) := by
  rw [tryMatchLink.eq_def]
  split
  · rename_i t heq
    injection heq with _ e2
    rw [← e2]
    dsimp only
    rw [takeUntil_exact ']' a _ ha]
    dsimp only
    split
    · rename_i v heq2
      injection heq2 with _ e4
      injection e4 with _ e5
      rw [← e5]
      rw [show (lit ++ ')' :: rest) = (lit ++ [')']) ++ rest by simp]
      rw [stripPre_self]
    · rename_i hne2
      exact absurd rfl (hne2 (lit ++ ')' :: rest))
  · rename_i hne
    exact absurd rfl (hne (a ++ ']' :: '(' :: (lit ++ ')' :: rest)))

theorem subImageScan_nil (lit url : List Char) : subImageScan lit url [] = [] := by
  rw [← subImageScanF_eq lit url 0 [] (by simp)]
  rfl

theorem subImageScan_cons_nomatch {lit url : List Char} {c : Char} {t : List Char}
    (h : tryMatchImage lit (c :: t) = none) :
    subImageScan lit url (c :: t) = c :: subImageScan lit url t := by
  rw [subImageScan]
  split
  · rename_i pr htry
    rw [h] at htry
    simp at htry
  · rfl

theorem subImageScan_match {lit url s a rest : List Char}
    (h : tryMatchImage lit s = some (a, rest)) :
    subImageScan lit url s =
      '!' :: '[' :: a ++ ']' :: '(' :: url ++ ')' :: subImageScan lit url rest := by
  rw [subImageScan]
  split
  · rename_i pr htry
    rw [h] at htry
    injection htry with e
    rw [← e]
  · rename_i htry
    rw [h] at htry
    simp at htry

theorem subImageScan_skip {lit url : List Char} (u : List Char) (rest : List Char)
    (hu : '[' ∉ u) (hb : u.getLast? = some '!' → rest.head? ≠ some '[') :
    subImageScan lit url (u ++ rest) = u ++ subImageScan lit url rest := by
  induction u with
  | nil => simp
  | cons c u' ih =>
    simp only [List.mem_cons, not_or] at hu
    have hnomatch : tryMatchImage lit (c :: (u' ++ rest)) = none := by
      by_cases hc : c = '!'
      · subst hc
        apply tryMatchImage_bang_not_bracket
        match u', hu.2 with
        | [], _ =>
          have := hb (by simp)
          simpa using this
        | d :: u'', hu2 =>
          simp only [List.mem_cons, not_or] at hu2
          simp [Ne.symm hu2.1]
      · exact tryMatchImage_not_bang hc
    rw [List.cons_append, subImageScan_cons_nomatch hnomatch]
    rw [ih hu.2 ?_]
    · rfl
    · intro hlast
      apply hb
      match u', hlast with
      | d :: u'', hlast => rw [List.getLast?_cons_cons]; exact hlast

theorem subLinkScan_nil (lit url : List Char) (size : Nat) :
    subLinkScan lit url size [] = [] := by
  rw [← subLinkScanF_eq lit url size 0 [] (by simp)]
  rfl

theorem subLinkScan_cons_nomatch {lit url : List Char} {size : Nat} {c : Char}
    {t : List Char} (h : tryMatchLink lit (c :: t) = none) :
    subLinkScan lit url size (c :: t) = c :: subLinkScan lit url size t := by
  rw [subLinkScan]
  split
  · rename_i pr htry
    rw [h] at htry
    simp at htry
  · rfl

theorem subLinkScan_match {lit url s a rest : List Char} {size : Nat}
    (h : tryMatchLink lit s = some (a, rest)) :
    subLinkScan lit url size s =
      linkReplacement a url size ++ subLinkScan lit url size rest := by
  rw [subLinkScan]
  split
  · rename_i pr htry
    rw [h] at htry
    injection htry with e
    rw [← e]
  · rename_i htry
    rw [h] at htry
    simp at htry

theorem subLinkScan_skip {lit url : List Char} {size : Nat} (u : List Char)
    (rest : List Char) (hu : '[' ∉ u) :
    subLinkScan lit url size (u ++ rest) = u ++ subLinkScan lit url size rest := by
  induction u with
  | nil => simp
  | cons c u' ih =>
    simp only [List.mem_cons, not_or] at hu
    rw [List.cons_append,
      subLinkScan_cons_nomatch (tryMatchLink_not_bracket (fun h => hu.1 h.symm))]
    rw [ih hu.2]
    rfl

theorem renderU_nil (path url : List Char) (size : Nat) :
    renderU path url size [] = [] := rfl

theorem renderU_cons (path url : List Char) (size : Nat) (tok : UTokX)
    (toks : List UTokX) :
    renderU path url size (tok :: toks) =
      tok.render path url size ++ renderU path url size toks := by
  simp [renderU]

theorem rparen_not_mem_lit {path : List Char} (hp : ')' ∉ path) (sp : Nat) :
    ')' ∉ slashes sp ++ path := by
  intro h
  rcases List.mem_append.mp h with h | h
  · exact rparen_not_mem_slashes sp h
  · exact hp h

theorem lbracket_not_mem_lit {path : List Char} (hp : '[' ∉ path) (sp : Nat) :
    '[' ∉ slashes sp ++ path := by
  intro h
  rcases List.mem_append.mp h with h | h
  · exact lbracket_not_mem_slashes sp h
  · exact hp h

theorem lbracket_not_mem_natChars (n : Nat) : '[' ∉ natChars n := by
  intro h
  have := natChars_digits n '[' h
  revert this
  decide

/-- Processing one well-formed token during the image pass for spelling
`sp`: a pending image with this spelling is rewritten, everything else is
copied unchanged. -/
theorem subImageScan_tok (path url : List Char) (size sp : Nat)
    (hp1 : ')' ∉ path) (hp2 : '[' ∉ path) (hu1 : ')' ∉ url) (hu2 : '[' ∉ url)
    (hune : url ≠ slashes sp ++ path) (hsp : sp ≤ 2)
    (tok : UTokX) (hwf : tok.wf) (rest : List Char) :
    subImageScan (slashes sp ++ path) url (tok.render path url size ++ rest)
      = (imgPassTok sp tok).render path url size ++
        subImageScan (slashes sp ++ path) url rest := by
  match tok with
  | .plain t =>
    show subImageScan _ url (t ++ rest) = t ++ _
    exact subImageScan_skip t rest hwf.1 (fun hl => absurd hl hwf.2)
  | .img a sp' =>
    obtain ⟨ha1, ha2, hsp'⟩ := hwf
    by_cases hpeq : sp' = sp
    · subst hpeq
      have hshape : (UTokX.img a sp').render path url size ++ rest =
          '!' :: '[' :: (a ++ ']' :: '(' :: ((slashes sp' ++ path) ++ ')' :: rest)) := by
        simp [UTokX.render]
      rw [hshape, subImageScan_match (tryMatchImage_success ha1)]
      simp [imgPassTok, UTokX.render]
    · have hwne : slashes sp ++ path ≠ slashes sp' ++ path :=
        slashes_ne hsp hsp' (fun h => hpeq h.symm) path
      have hfail := stripPre_neq ')' (slashes sp ++ path) (slashes sp' ++ path)
        rest hwne (rparen_not_mem_lit hp1 sp) (rparen_not_mem_lit hp1 sp')
      have hno := tryMatchImage_bracket_fail ha1 hfail
      have hshape : (UTokX.img a sp').render path url size ++ rest =
          '!' :: '[' :: (a ++ ']' :: '(' :: ((slashes sp' ++ path) ++ ')' :: rest)) := by
        simp [UTokX.render]
      rw [hshape, subImageScan_cons_nomatch hno,
        subImageScan_cons_nomatch (tryMatchImage_not_bang (by decide))]
      have hsplit : a ++ ']' :: '(' :: ((slashes sp' ++ path) ++ ')' :: rest) =
          (a ++ ']' :: '(' :: ((slashes sp' ++ path) ++ [')'])) ++ rest := by
        simp
      rw [hsplit, subImageScan_skip _ rest ?hu ?hb]
      · simp [imgPassTok, hpeq, UTokX.render]
      case hu =>
        intro h
        rcases List.mem_append.mp h with h | h
        · exact ha2 h
        · rcases List.mem_cons.mp h with h | h
          · exact absurd h (by decide)
          · rcases List.mem_cons.mp h with h | h
            · exact absurd h (by decide)
            · rcases List.mem_append.mp h with h | h
              · exact lbracket_not_mem_lit hp2 sp' h
              · rcases List.mem_singleton.mp h with h
                exact absurd h (by decide)
      case hb =>
        intro hl
        have : (a ++ ']' :: '(' :: ((slashes sp' ++ path) ++ [')'])).getLast? =
            some ')' := by
          rw [show a ++ ']' :: '(' :: ((slashes sp' ++ path) ++ [')']) =
            (a ++ ']' :: '(' :: (slashes sp' ++ path)) ++ [')'] by simp]
          exact List.getLast?_concat _
        rw [this] at hl
        exact absurd hl (by decide)
  | .lnk a sp' =>
    obtain ⟨ha1, ha2, hsp'⟩ := hwf
    have hshape : (UTokX.lnk a sp').render path url size ++ rest =
        '[' :: ((a ++ ']' :: '(' :: ((slashes sp' ++ path) ++ [')'])) ++ rest) := by
      simp [UTokX.render]
    rw [hshape, subImageScan_cons_nomatch (tryMatchImage_not_bang (by decide)),
      subImageScan_skip _ rest ?hu2 ?hb2]
    · simp [imgPassTok, UTokX.render]
    case hu2 =>
      intro h
      rcases List.mem_append.mp h with h | h
      · exact ha2 h
      · rcases List.mem_cons.mp h with h | h
        · exact absurd h (by decide)
        · rcases List.mem_cons.mp h with h | h
          · exact absurd h (by decide)
          · rcases List.mem_append.mp h with h | h
            · exact lbracket_not_mem_lit hp2 sp' h
            · rcases List.mem_singleton.mp h with h
              exact absurd h (by decide)
    case hb2 =>
      intro hl
      have : (a ++ ']' :: '(' :: ((slashes sp' ++ path) ++ [')'])).getLast? =
          some ')' := by
        rw [show a ++ ']' :: '(' :: ((slashes sp' ++ path) ++ [')']) =
          (a ++ ']' :: '(' :: (slashes sp' ++ path)) ++ [')'] by simp]
        exact List.getLast?_concat _
      rw [this] at hl
      exact absurd hl (by decide)
  | .rimg a =>
    obtain ⟨ha1, ha2⟩ := hwf
    have hfail := stripPre_neq ')' (slashes sp ++ path) url rest
      (Ne.symm hune) (rparen_not_mem_lit hp1 sp) hu1
    have hno := tryMatchImage_bracket_fail ha1 hfail
    have hshape : (UTokX.rimg a).render path url size ++ rest =
        '!' :: '[' :: (a ++ ']' :: '(' :: (url ++ ')' :: rest)) := by
      simp [UTokX.render]
    rw [hshape, subImageScan_cons_nomatch hno,
      subImageScan_cons_nomatch (tryMatchImage_not_bang (by decide))]
    have hsplit : a ++ ']' :: '(' :: (url ++ ')' :: rest) =
        (a ++ ']' :: '(' :: (url ++ [')'])) ++ rest := by
      simp
    rw [hsplit, subImageScan_skip _ rest ?hu3 ?hb3]
    · simp [imgPassTok, UTokX.render]
    case hu3 =>
      intro h
      rcases List.mem_append.mp h with h | h
      · exact ha2 h
      · rcases List.mem_cons.mp h with h | h
        · exact absurd h (by decide)
        · rcases List.mem_cons.mp h with h | h
          · exact absurd h (by decide)
          · rcases List.mem_append.mp h with h | h
            · exact hu2 h
            · rcases List.mem_singleton.mp h with h
              exact absurd h (by decide)
    case hb3 =>
      intro hl
      have : (a ++ ']' :: '(' :: (url ++ [')'])).getLast? = some ')' := by
        rw [show a ++ ']' :: '(' :: (url ++ [')']) =
          (a ++ ']' :: '(' :: url) ++ [')'] by simp]
        exact List.getLast?_concat _
      rw [this] at hl
      exact absurd hl (by decide)
  | .rlnk a =>
    obtain ⟨ha1, ha2⟩ := hwf
    have hshape : (UTokX.rlnk a).render path url size ++ rest =
        '[' :: (((if '/' ∈ pyStrip a then pathName (pyStrip a) else pyStrip a) ++
          ' ' :: natChars size ++ ']' :: '(' :: url ++ [')']) ++ rest) := by
      simp [UTokX.render, linkReplacement]
    rw [hshape, subImageScan_cons_nomatch (tryMatchImage_not_bang (by decide)),
      subImageScan_skip _ rest ?hu4 ?hb4]
    · simp [imgPassTok, UTokX.render, linkReplacement]
    case hu4 =>
      intro h
      rcases List.mem_append.mp h with h | h
      · rcases List.mem_append.mp h with h | h
        · rcases List.mem_append.mp h with h | h
          · split at h
            · exact ha2 (mem_pyStrip (mem_pathName h))
            · exact ha2 (mem_pyStrip h)
          · rcases List.mem_cons.mp h with h | h
            · exact absurd h (by decide)
            · exact lbracket_not_mem_natChars size h
        · rcases List.mem_cons.mp h with h | h
          · exact absurd h (by decide)
          · rcases List.mem_cons.mp h with h | h
            · exact absurd h (by decide)
            · exact hu2 h
      · rcases List.mem_singleton.mp h with h
        exact absurd h (by decide)
    case hb4 =>
      intro hl
      rw [List.getLast?_concat] at hl
      exact absurd hl (by decide)

theorem rbracket_not_mem_natChars (n : Nat) : ']' ∉ natChars n := by
  intro h
  have := natChars_digits n ']' h
  revert this
  decide

/-- Processing one well-formed token during the link pass for spelling
`sp`, provided the image pass for `sp` has already run (no pending image
with this spelling remains): a pending link with this spelling is
rewritten, everything else is copied unchanged. -/
theorem subLinkScan_tok (path url : List Char) (size sp : Nat)
    (hp1 : ')' ∉ path) (hp2 : '[' ∉ path) (hu1 : ')' ∉ url) (hu2 : '[' ∉ url)
    (hune : url ≠ slashes sp ++ path) (hsp : sp ≤ 2)
    (tok : UTokX) (hwf : tok.wf) (hnimg : ∀ b, tok ≠ UTokX.img b sp)
    (rest : List Char) :
    subLinkScan (slashes sp ++ path) url size (tok.render path url size ++ rest)
      = (lnkPassTok sp tok).render path url size ++
        subLinkScan (slashes sp ++ path) url size rest := by
  match tok with
  | .plain t =>
    show subLinkScan _ url size (t ++ rest) = t ++ _
    exact subLinkScan_skip t rest hwf.1
  | .img a sp' =>
    obtain ⟨ha1, ha2, hsp'⟩ := hwf
    have hpeq : sp' ≠ sp := by
      intro h
      exact (hnimg a) (by rw [h])
    have hwne : slashes sp ++ path ≠ slashes sp' ++ path :=
      slashes_ne hsp hsp' (fun h => hpeq h.symm) path
    have hfail := stripPre_neq ')' (slashes sp ++ path) (slashes sp' ++ path)
      rest hwne (rparen_not_mem_lit hp1 sp) (rparen_not_mem_lit hp1 sp')
    have hno := tryMatchLink_bracket_fail ha1 hfail
    have hshape : (UTokX.img a sp').render path url size ++ rest =
        '!' :: '[' :: (a ++ ']' :: '(' :: ((slashes sp' ++ path) ++ ')' :: rest)) := by
      simp [UTokX.render]
    rw [hshape, subLinkScan_cons_nomatch (tryMatchLink_not_bracket (by decide)),
      subLinkScan_cons_nomatch hno]
    have hsplit : a ++ ']' :: '(' :: ((slashes sp' ++ path) ++ ')' :: rest) =
        (a ++ ']' :: '(' :: ((slashes sp' ++ path) ++ [')'])) ++ rest := by
      simp
    rw [hsplit, subLinkScan_skip _ rest ?hu1i]
    · simp [lnkPassTok, UTokX.render]
    case hu1i =>
      intro h
      rcases List.mem_append.mp h with h | h
      · exact ha2 h
      · rcases List.mem_cons.mp h with h | h
        · exact absurd h (by decide)
        · rcases List.mem_cons.mp h with h | h
          · exact absurd h (by decide)
          · rcases List.mem_append.mp h with h | h
            · exact lbracket_not_mem_lit hp2 sp' h
            · rcases List.mem_singleton.mp h with h
              exact absurd h (by decide)
  | .lnk a sp' =>
    obtain ⟨ha1, ha2, hsp'⟩ := hwf
    by_cases hpeq : sp' = sp
    · subst hpeq
      have hshape : (UTokX.lnk a sp').render path url size ++ rest =
          '[' :: (a ++ ']' :: '(' :: ((slashes sp' ++ path) ++ ')' :: rest)) := by
        simp [UTokX.render]
      rw [hshape, subLinkScan_match (tryMatchLink_success ha1)]
      simp [lnkPassTok, UTokX.render]
    · have hwne : slashes sp ++ path ≠ slashes sp' ++ path :=
        slashes_ne hsp hsp' (fun h => hpeq h.symm) path
      have hfail := stripPre_neq ')' (slashes sp ++ path) (slashes sp' ++ path)
        rest hwne (rparen_not_mem_lit hp1 sp) (rparen_not_mem_lit hp1 sp')
      have hno := tryMatchLink_bracket_fail ha1 hfail
      have hshape : (UTokX.lnk a sp').render path url size ++ rest =
          '[' :: (a ++ ']' :: '(' :: ((slashes sp' ++ path) ++ ')' :: rest)) := by
        simp [UTokX.render]
      rw [hshape, subLinkScan_cons_nomatch hno]
      have hsplit : a ++ ']' :: '(' :: ((slashes sp' ++ path) ++ ')' :: rest) =
          (a ++ ']' :: '(' :: ((slashes sp' ++ path) ++ [')'])) ++ rest := by
        simp
      rw [hsplit, subLinkScan_skip _ rest ?hu2i]
      · simp [lnkPassTok, hpeq, UTokX.render]
      case hu2i =>
        intro h
        rcases List.mem_append.mp h with h | h
        · exact ha2 h
        · rcases List.mem_cons.mp h with h | h
          · exact absurd h (by decide)
          · rcases List.mem_cons.mp h with h | h
            · exact absurd h (by decide)
            · rcases List.mem_append.mp h with h | h
              · exact lbracket_not_mem_lit hp2 sp' h
              · rcases List.mem_singleton.mp h with h
                exact absurd h (by decide)
  | .rimg a =>
    obtain ⟨ha1, ha2⟩ := hwf
    have hfail := stripPre_neq ')' (slashes sp ++ path) url rest
      (Ne.symm hune) (rparen_not_mem_lit hp1 sp) hu1
    have hno := tryMatchLink_bracket_fail ha1 hfail
    have hshape : (UTokX.rimg a).render path url size ++ rest =
        '!' :: '[' :: (a ++ ']' :: '(' :: (url ++ ')' :: rest)) := by
      simp [UTokX.render]
    rw [hshape, subLinkScan_cons_nomatch (tryMatchLink_not_bracket (by decide)),
      subLinkScan_cons_nomatch hno]
    have hsplit : a ++ ']' :: '(' :: (url ++ ')' :: rest) =
        (a ++ ']' :: '(' :: (url ++ [')'])) ++ rest := by
      simp
    rw [hsplit, subLinkScan_skip _ rest ?hu3i]
    · simp [lnkPassTok, UTokX.render]
    case hu3i =>
      intro h
      rcases List.mem_append.mp h with h | h
      · exact ha2 h
      · rcases List.mem_cons.mp h with h | h
        · exact absurd h (by decide)
        · rcases List.mem_cons.mp h with h | h
          · exact absurd h (by decide)
          · rcases List.mem_append.mp h with h | h
            · exact hu2 h
            · rcases List.mem_singleton.mp h with h
              exact absurd h (by decide)
  | .rlnk a =>
    obtain ⟨ha1, ha2⟩ := hwf
    have hfail := stripPre_neq ')' (slashes sp ++ path) url rest
      (Ne.symm hune) (rparen_not_mem_lit hp1 sp) hu1
    have hnA : ']' ∉ (if '/' ∈ pyStrip a then pathName (pyStrip a) else pyStrip a) ++
        ' ' :: natChars size := by
      intro h
      rcases List.mem_append.mp h with h | h
      · split at h
        · exact ha1 (mem_pyStrip (mem_pathName h))
        · exact ha1 (mem_pyStrip h)
      · rcases List.mem_cons.mp h with h | h
        · exact absurd h (by decide)
        · exact rbracket_not_mem_natChars size h
    have hno := tryMatchLink_bracket_fail hnA hfail
    have hshape : (UTokX.rlnk a).render path url size ++ rest =
        '[' :: (((if '/' ∈ pyStrip a then pathName (pyStrip a) else pyStrip a) ++
          ' ' :: natChars size) ++ ']' :: '(' :: (url ++ ')' :: rest)) := by
      simp [UTokX.render, linkReplacement]
    rw [hshape, subLinkScan_cons_nomatch hno]
    have hsplit : ((if '/' ∈ pyStrip a then pathName (pyStrip a) else pyStrip a) ++
          ' ' :: natChars size) ++ ']' :: '(' :: (url ++ ')' :: rest) =
        (((if '/' ∈ pyStrip a then pathName (pyStrip a) else pyStrip a) ++
          ' ' :: natChars size) ++ ']' :: '(' :: (url ++ [')'])) ++ rest := by
      simp
    rw [hsplit, subLinkScan_skip _ rest ?hu4i]
    · simp [lnkPassTok, UTokX.render, linkReplacement]
    case hu4i =>
      intro h
      rcases List.mem_append.mp h with h | h
      · rcases List.mem_append.mp h with h | h
        · split at h
          · exact ha2 (mem_pyStrip (mem_pathName h))
          · exact ha2 (mem_pyStrip h)
        · rcases List.mem_cons.mp h with h | h
          · exact absurd h (by decide)
          · exact lbracket_not_mem_natChars size h
      · rcases List.mem_cons.mp h with h | h
        · exact absurd h (by decide)
        · rcases List.mem_cons.mp h with h | h
          · exact absurd h (by decide)
          · rcases List.mem_append.mp h with h | h
            · exact hu2 h
            · rcases List.mem_singleton.mp h with h
              exact absurd h (by decide)

/-- The image pass over a whole well-formed token list. -/
theorem subImageScan_pass (path url : List Char) (size sp : Nat)
    (hp1 : ')' ∉ path) (hp2 : '[' ∉ path) (hu1 : ')' ∉ url) (hu2 : '[' ∉ url)
    (hune : url ≠ slashes sp ++ path) (hsp : sp ≤ 2) :
    ∀ toks : List UTokX, (∀ tok ∈ toks, tok.wf) →
      subImageScan (slashes sp ++ path) url (renderU path url size toks)
        = renderU path url size (toks.map (imgPassTok sp)) := by
  intro toks
  induction toks with
  | nil => intro _; rw [renderU_nil, subImageScan_nil]; rfl
  | cons tok toks ih =>
    intro hwf
    rw [renderU_cons, List.map_cons, renderU_cons,
      subImageScan_tok path url size sp hp1 hp2 hu1 hu2 hune hsp tok
        (hwf tok (List.mem_cons_self tok toks)) (renderU path url size toks),
      ih (fun t ht => hwf t (List.mem_cons_of_mem tok ht))]

/-- The link pass over a whole well-formed token list with no pending
image occurrence of the current spelling. -/
theorem subLinkScan_pass (path url : List Char) (size sp : Nat)
    (hp1 : ')' ∉ path) (hp2 : '[' ∉ path) (hu1 : ')' ∉ url) (hu2 : '[' ∉ url)
    (hune : url ≠ slashes sp ++ path) (hsp : sp ≤ 2) :
    ∀ toks : List UTokX, (∀ tok ∈ toks, tok.wf) →
      (∀ b, UTokX.img b sp ∉ toks) →
      subLinkScan (slashes sp ++ path) url size (renderU path url size toks)
        = renderU path url size (toks.map (lnkPassTok sp)) := by
  intro toks
  induction toks with
  | nil => intro _ _; rw [renderU_nil, subLinkScan_nil]; rfl
  | cons tok toks ih =>
    intro hwf hni
    rw [renderU_cons, List.map_cons, renderU_cons,
      subLinkScan_tok path url size sp hp1 hp2 hu1 hu2 hune hsp tok
        (hwf tok (List.mem_cons_self tok toks))
        (fun b hb => (hni b) (hb ▸ List.mem_cons_self tok toks))
        (renderU path url size toks),
      ih (fun t ht => hwf t (List.mem_cons_of_mem tok ht))
        (fun b hb => (hni b) (List.mem_cons_of_mem tok hb))]

theorem imgPassTok_wf {sp : Nat} {tok : UTokX} (h : tok.wf) :
    (imgPassTok sp tok).wf := by
  match tok with
  | .plain t => exact h
  | .img a sp' =>
    show (if sp' = sp then UTokX.rimg a else UTokX.img a sp').wf
    split
    · exact ⟨h.1, h.2.1⟩
    · exact h
  | .lnk a sp' => exact h
  | .rimg a => exact h
  | .rlnk a => exact h

theorem lnkPassTok_wf {sp : Nat} {tok : UTokX} (h : tok.wf) :
    (lnkPassTok sp tok).wf := by
  match tok with
  | .plain t => exact h
  | .img a sp' => exact h
  | .lnk a sp' =>
    show (if sp' = sp then UTokX.rlnk a else UTokX.lnk a sp').wf
    split
    · exact ⟨h.1, h.2.1⟩
    · exact h
  | .rimg a => exact h
  | .rlnk a => exact h

theorem imgPassTok_no_img {sp : Nat} (tok : UTokX) (b : List Char) :
    imgPassTok sp tok ≠ UTokX.img b sp := by
  match tok with
  | .plain t => intro h; exact absurd h (by simp [imgPassTok])
  | .img a sp' =>
    show (if sp' = sp then UTokX.rimg a else UTokX.img a sp') ≠ _
    split
    · intro h; exact absurd h (by simp)
    · rename_i hne
      intro h
      injection h with _ h2
      exact hne h2
  | .lnk a sp' => intro h; exact absurd h (by simp [imgPassTok])
  | .rimg a => intro h; exact absurd h (by simp [imgPassTok])
  | .rlnk a => intro h; exact absurd h (by simp [imgPassTok])

/-- One spelling (image pass then link pass) over a well-formed token
list rewrites exactly the pending occurrences of that spelling. -/
theorem applySpelling_pass (path url : List Char) (size sp : Nat)
    (hp1 : ')' ∉ path) (hp2 : '[' ∉ path) (hu1 : ')' ∉ url) (hu2 : '[' ∉ url)
    (hune : url ≠ slashes sp ++ path) (hsp : sp ≤ 2)
    (toks : List UTokX) (hwf : ∀ tok ∈ toks, tok.wf) :
    applySpelling (slashes sp ++ path) url size (renderU path url size toks)
      = renderU path url size (toks.map (fun t => lnkPassTok sp (imgPassTok sp t))) := by
  rw [applySpelling,
    subImageScan_pass path url size sp hp1 hp2 hu1 hu2 hune hsp toks hwf,
    subLinkScan_pass path url size sp hp1 hp2 hu1 hu2 hune hsp
      (toks.map (imgPassTok sp)) ?w ?n, List.map_map]
  rfl
  case w =>
    intro t ht
    rcases List.mem_map.mp ht with ⟨t0, ht0, rfl⟩
    exact imgPassTok_wf (hwf t0 ht0)
  case n =>
    intro b hb
    rcases List.mem_map.mp hb with ⟨t0, _, h⟩
    exact imgPassTok_no_img t0 b h

/-- The three spellings' image+link passes, composed, send every
well-formed token to its final form. -/
theorem passes_finalTok {tok : UTokX} (h : tok.wf) :
    lnkPassTok 2 (imgPassTok 2 (lnkPassTok 1 (imgPassTok 1
      (lnkPassTok 0 (imgPassTok 0 tok))))) = finalTok tok := by
  match tok with
  | .plain t => rfl
  | .img a sp =>
    have hsp : sp ≤ 2 := h.2.2
    interval_cases sp <;> rfl
  | .lnk a sp =>
    have hsp : sp ≤ 2 := h.2.2
    interval_cases sp <;> rfl
  | .rimg a => rfl
  | .rlnk a => rfl

/-- `applyEntry` (one mapping entry, all three spellings in source order)
rewrites every pending occurrence of the entry's reference and leaves
everything else unchanged, over any well-formed token decomposition. -/
theorem applyEntry_pass (path url : List Char) (size : Nat)
    (hp1 : ')' ∉ path) (hp2 : '[' ∉ path) (hu1 : ')' ∉ url) (hu2 : '[' ∉ url)
    (hne0 : url ≠ path) (hne1 : url ≠ '/' :: path)
    (hne2 : url ≠ '/' :: '/' :: path)
    (toks : List UTokX) (hwf : ∀ tok ∈ toks, tok.wf) :
    applyEntry path url size (renderU path url size toks)
      = renderU path url size (toks.map finalTok) := by
  have h0 : applySpelling path url size (renderU path url size toks)
      = renderU path url size
          (toks.map (fun t => lnkPassTok 0 (imgPassTok 0 t))) :=
    applySpelling_pass path url size 0 hp1 hp2 hu1 hu2 hne0 (by norm_num)
      toks hwf
  have hwf1 : ∀ tok ∈ toks.map (fun t => lnkPassTok 0 (imgPassTok 0 t)),
      tok.wf := by
    intro t ht
    rcases List.mem_map.mp ht with ⟨t0, ht0, rfl⟩
    exact lnkPassTok_wf (imgPassTok_wf (hwf t0 ht0))
  have h1 : applySpelling ('/' :: path) url size
        (renderU path url size (toks.map (fun t => lnkPassTok 0 (imgPassTok 0 t))))
      = renderU path url size
          ((toks.map (fun t => lnkPassTok 0 (imgPassTok 0 t))).map
            (fun t => lnkPassTok 1 (imgPassTok 1 t))) :=
    applySpelling_pass path url size 1 hp1 hp2 hu1 hu2 hne1 (by norm_num)
      _ hwf1
  have hwf2 : ∀ tok ∈ (toks.map (fun t => lnkPassTok 0 (imgPassTok 0 t))).map
      (fun t => lnkPassTok 1 (imgPassTok 1 t)), tok.wf := by
    intro t ht
    rcases List.mem_map.mp ht with ⟨t0, ht0, rfl⟩
    exact lnkPassTok_wf (imgPassTok_wf (hwf1 t0 ht0))
  have h2 : applySpelling ('/' :: '/' :: path) url size
        (renderU path url size
          ((toks.map (fun t => lnkPassTok 0 (imgPassTok 0 t))).map
            (fun t => lnkPassTok 1 (imgPassTok 1 t))))
      = renderU path url size
          (((toks.map (fun t => lnkPassTok 0 (imgPassTok 0 t))).map
            (fun t => lnkPassTok 1 (imgPassTok 1 t))).map
              (fun t => lnkPassTok 2 (imgPassTok 2 t))) :=
    applySpelling_pass path url size 2 hp1 hp2 hu1 hu2 hne2 (by norm_num)
      _ hwf2
  rw [applyEntry, h0, h1, h2, List.map_map, List.map_map]
  congr 1
  apply List.map_congr_left
  intro t ht
  exact passes_finalTok (hwf t ht)

/-- **C5** (corrected).  For a mapping entry `path ↦ (url, size)` and any
body decomposed into well-formed tokens (plain text without `[` and not
ending in `!`, image occurrences `![alt](SPELLING)` and link occurrences
`[text](SPELLING)` where SPELLING is `path` with zero, one or two leading
slashes), `replace_attachment_urls` rewrites every image occurrence to
`![alt](url)` with the alt text preserved verbatim, and every link
occurrence to `[filename size](url)` where `filename` is computed from
the *stripped* link text (its last path segment if it contains `/`, the
stripped text itself otherwise) — not from the raw text as the claim
states — and `size` is the literal byte count; all other text is left
unchanged. -/
theorem c5_url_rewrite (path url : String) (size : Nat) (toks : List UTokX)
    (hwf : ∀ tok ∈ toks, tok.wf)
    (hp1 : ')' ∉ path.toList) (hp2 : '[' ∉ path.toList)
    (hu1 : ')' ∉ url.toList) (hu2 : '[' ∉ url.toList)
    (hne0 : url.toList ≠ path.toList)
    (hne1 : url.toList ≠ '/' :: path.toList)
    (hne2 : url.toList ≠ '/' :: '/' :: path.toList) :
    replace_attachment_urls
        (renderU path.toList url.toList size toks).asString [(path, url, size)]
      = (renderU path.toList url.toList size (toks.map finalTok)).asString := by
  show (applyEntry path.toList url.toList size
      (renderU path.toList url.toList size toks)).asString = _
  rw [applyEntry_pass path.toList url.toList size hp1 hp2 hu1 hu2
    hne0 hne1 hne2 toks hwf]

/-- `replace_attachment_urls` applies `.strip()` to the link text before
building the replacement, so a link text with surrounding whitespace is
not reproduced unchanged as the claim states: `"[ b.png ](files/a/b.png)"`
becomes `"[b.png 2048](https://x/u1)"`, not `"[ b.png  2048](https://x/u1)"`. -/
theorem c5_counterexample :
    replace_attachment_urls "[ b.png ](files/a/b.png)"
        [("files/a/b.png", "https://x/u1", 2048)]
      = "[b.png 2048](https://x/u1)" ∧
    ("[b.png 2048](https://x/u1)" : String) ≠ "[ b.png  2048](https://x/u1)" := by
  refine ⟨?_, by decide⟩
  rw [replace_attachment_urls_single_eval]
  decide

theorem c5_url_rewrite_witness :
    replace_attachment_urls "[b.png](files/a/b.png) ![alt](files/a/b.png)"
        [("files/a/b.png", "https://x/u1", 2048)]
      = "[b.png 2048](https://x/u1) ![alt](https://x/u1)" := by
  have h := c5_url_rewrite "files/a/b.png" "https://x/u1" 2048
      [UTokX.lnk "b.png".toList 0, UTokX.plain " ".toList,
        UTokX.img "alt".toList 0]
      (by decide) (by decide) (by decide) (by decide) (by decide)
      (by decide) (by decide) (by decide)
  have e1 : (renderU "files/a/b.png".toList "https://x/u1".toList 2048
      [UTokX.lnk "b.png".toList 0, UTokX.plain " ".toList,
        UTokX.img "alt".toList 0]).asString
      = "[b.png](files/a/b.png) ![alt](files/a/b.png)" := by decide
  have e2 : (renderU "files/a/b.png".toList "https://x/u1".toList 2048
      ([UTokX.lnk "b.png".toList 0, UTokX.plain " ".toList,
        UTokX.img "alt".toList 0].map finalTok)).asString
      = "[b.png 2048](https://x/u1) ![alt](https://x/u1)" := by decide
  rw [← e1, h]
  exact e2
